import Mathlib

/-!
# Verification of the fragment-reconstruction program

Shallow embedding of the repository's core (`url_string.py`,
`url_suffix_tree.py`, `main.py`) and proofs about it.

Modelling conventions:
* Python strings are `List Char`; machine text indexing is by `Nat` position.
* A `URLString`'s `true_positions` field is recomputed from `string` by
  `update_true_positions` at construction and after every mutation, so it is
  always the function `truePositions` of the raw text; we therefore represent
  a `URLString` by its raw text and derive the positions on demand.
* Python code that can raise an exception (IndexError, TypeError, NameError,
  infinite-fuel exhaustion) is modelled in `Option`, with `none` meaning
  "raises"; the DFS uses `Except` so that the two distinct failure points can
  be told apart.
* In-place mutation is modelled by explicit state passing; the object
  aliasing in `stitch`'s final merge loop is modelled by the set of indices
  (`group`) that alias the single merged string.
-/

namespace KBase

/-- The reserved terminator character (`TERMINATOR = '$'` in `url_string.py`). -/
def TERMINATOR : Char := '$'

/-- The overlap guarantee (`MIN_OVERLAP = 3` in `main.py`). -/
def MIN_OVERLAP : Nat := 3

/-! ## Tokenization (`URLString.update_true_positions`)

The Python loop is:
```
i = 0
while i < len(self.string):
    self.true_positions.append(i)
    if self.string[i] == '%': i += 2
    elif self.string[i] == TERMINATOR: break
    i += 1
self.true_positions.append(len(self.string))
```
`truePositionsAux s i` produces the appended positions for the remaining
characters `s` starting at absolute position `i`; note that a `'%'` blindly
consumes the next two characters (no hex check, no bounds check) and a
terminator ends the scan, leaving the whole tail as one final token. -/
def truePositionsAux : List Char → Nat → List Nat
  | [], _ => []
  | c :: r, i =>
    if c = '%' then
      match r with
      | _ :: _ :: rest => i :: truePositionsAux rest (i + 3)
      | _ => [i]  -- i+3 exceeds the length, so the loop exits after this append
    else if c = TERMINATOR then
      [i]
    else
      i :: truePositionsAux r (i + 1)

/-- `self.true_positions` as a function of the raw text. -/
def truePositions (s : List Char) : List Nat :=
  truePositionsAux s 0 ++ [s.length]

/-- Token count: `URLString.__len__` is `len(self.true_positions) - 1`. -/
def ulen (s : List Char) : Nat := (truePositions s).length - 1

/-- The token decomposition induced by `truePositions`: one ordinary
character, a `%`-triplet (`%` plus the next *two characters whatever they
are*, fewer at the end of the string), or a terminator token running to the
end of the string.  `tokens` is the structural view of the same scan; the
lemmas `tpAux_length`, `tp_get_spec` and `getTokTP_eq` below establish the
exact correspondence with `truePositions`-based slicing used by the Python
code. -/
def tokens : List Char → List (List Char)
  | [] => []
  | c :: r =>
    if c = '%' then
      match r with
      | a :: b :: rest => ['%', a, b] :: tokens rest
      | _ => [c :: r]
    else if c = TERMINATOR then
      [c :: r]
    else
      [c] :: tokens r

/-- `URLString.__getitem__` with an integer key returns the raw text between
consecutive true positions, i.e. the `i`-th token (out of range is an
IndexError in Python; the tree code never indexes out of range on the
non-empty edge strings it stores, and we use the empty default there). -/
def getTok (s : List Char) (i : Nat) : List Char := (tokens s).getD i []

/-- `URLString.__getitem__` with slice `[k:]`: Python computes
`self.true_positions[key.start] if key.start else None`, so `k = 0` slices
from the beginning and otherwise the `k`-th true position is looked up
(IndexError = `none` when out of range). -/
def sliceFrom (s : List Char) (k : Nat) : Option (List Char) :=
  if k = 0 then some s
  else ((truePositions s).get? k).map fun p => s.drop p

/-- `URLString.join(join_string, overlap)`: appends `join_string[overlap:]`
to the raw text (and re-derives the positions, which our representation does
implicitly). -/
def join (s t : List Char) (overlap : Nat) : Option (List Char) :=
  (sliceFrom t overlap).map fun tail => s ++ tail

/-- `URLString.__eq__` compares the raw texts (for both `URLString` and plain
string arguments). -/
def urlEq (a b : List Char) : Bool := a == b

/-- `URLString` overrides `__eq__` without defining `__hash__`; per the
Python data model this sets the class's `__hash__` to `None`, so instances
are unhashable.  We record the (absent) hash implementation. -/
def urlHashImpl : Option (List Char → Nat) := none

/-- `URLString.to_convention_text` is `urllib.parse.unquote_plus`.  Modelled
from the spec: the function is library code outside this repository.  `+`
becomes a space and a valid `%XX` escape becomes the character with that code
(bytes are identified with characters, which matches CPython on ASCII
escapes); an invalid escape is kept literally, scanning resuming right after
the `%`. -/
def isHex (c : Char) : Bool :=
  c.isDigit || ('a' ≤ c && c ≤ 'f') || ('A' ≤ c && c ≤ 'F')

def hexVal (c : Char) : Nat :=
  if c.isDigit then c.toNat - '0'.toNat
  else if 'a' ≤ c ∧ c ≤ 'f' then c.toNat - 'a'.toNat + 10
  else c.toNat - 'A'.toNat + 10

def decode : List Char → List Char
  | [] => []
  | '%' :: a :: b :: r =>
    if isHex a && isHex b then
      Char.ofNat (16 * hexVal a + hexVal b) :: decode r
    else
      '%' :: decode (a :: b :: r)
  | '+' :: r => ' ' :: decode r
  | c :: r => c :: decode r

/-! ## The suffix tree (`url_suffix_tree.py`)

A `URLSuffixTreeNode` holds the edge string from its parent (`self.string`,
raw text, positions derived), an optional identity `(string id, suffix id)`
and a dictionary of children keyed by the raw text of the first token of each
child's edge string.  Python dictionaries preserve insertion order (updating
an existing key keeps its position, a new key is appended), so children are
an association list with exactly that update discipline.  The mutual
inductive lets all tree functions be structurally recursive (and hence
kernel-computable). -/

mutual
inductive Node where
  | mk (string : List Char) (identity : Option (Nat × Nat)) (children : Children)

inductive Children where
  | nil
  | cons (key : List Char) (node : Node) (rest : Children)
end

/-- Edge string from the parent up to this node. -/
def Node.str : Node → List Char
  | .mk s _ _ => s

/-- Optional `(string id, suffix id)` identity. -/
def Node.identity : Node → Option (Nat × Nat)
  | .mk _ i _ => i

def Node.children : Node → Children
  | .mk _ _ c => c

/-- `key in node.children` / `node.children[key]` lookup. -/
def Children.find? : Children → List Char → Option Node
  | .nil, _ => none
  | .cons k n rest, key => if k = key then some n else rest.find? key

/-- `node.children[key] = n`: update in place if the key is present,
otherwise append (Python dict insertion-order semantics). -/
def Children.setKey : Children → List Char → Node → Children
  | .nil, key, n => .cons key n .nil
  | .cons k m rest, key, n =>
    if k = key then .cons k n rest else .cons k m (rest.setKey key n)

/-- `URLSuffixTreeNode.split(split_point, new_back_string, new_identity)`.

`split_point <= 0` (Python passes `-1` or, in one unreachable branch, `0`)
just attaches a new child.  Otherwise the node's edge string is cut at the
`split_point`-th true position: the old continuation keeps the identity and
children, the new continuation carries the inserted suffix's identity, and
the node itself becomes an intermediate node whose two-entry child dict
lists the old continuation first.  `newBack` is the raw text of the suffix
remainder (`suffix[c:]` in Python). -/
def splitNode (n : Node) (splitPoint : Nat) (newBack : List Char)
    (newIdentity : Nat × Nat) : Node :=
  match n with
  | .mk s id cs =>
    if splitPoint = 0 then
      .mk s id (cs.setKey (getTok newBack 0) (.mk newBack (some newIdentity) .nil))
    else
      -- front_string = self.string[:split_point]; old_back = self.string[split_point:]
      let p := (truePositions s).getD splitPoint s.length
      let front := s.take p
      let oldBack := s.drop p
      let oldNode : Node := .mk oldBack id cs
      let newNode : Node := .mk newBack (some newIdentity) .nil
      .mk front none
        (Children.cons (getTok oldBack 0) oldNode
          (Children.cons (getTok newBack 0) newNode .nil))

/-- The insertion walk of `URLSuffixTree.insert` (the `for c in
range(len(suffix))` loop), with path copying for the in-place mutation.
`toks` is the remaining token list `[suffix[c], suffix[c+1], ...]` (by
`getTokTP_eq`, `tokens suffix` is exactly the list of Python tokens
`suffix[c]`, and by `tp_get_spec` the raw slice `suffix[c:]` is
the flattening of the remaining tokens); `index` is the match position
inside the current node's edge string.  The walk either exhausts the suffix
(tree unchanged) or performs exactly one split/attach and stops. -/
def insertWalk (node : Node) (index : Nat) (toks : List (List Char))
    (strId : Nat × Nat) : Node :=
  match toks with
  | [] => node  -- loop ended without a break: nothing to do
  | tok :: rest =>
    match node with
    | .mk s id cs =>
      if index = ulen s then
        match cs.find? tok with
        | some child =>
          -- descend: cur_node, index = child, 0; then the mismatch test
          -- compares suffix[c] with child.string[0]
          if tok = getTok child.str 0 then
            .mk s id (cs.setKey tok (insertWalk child 1 rest strId))
          else
            -- unreachable when keys are the first tokens of the edges;
            -- Python would call child.split(0, suffix[c:], str_id)
            .mk s id (cs.setKey tok (splitNode child 0 (tok :: rest).flatten strId))
        | none =>
          -- index = -1: cur_node.split(-1, suffix[c:], str_id)
          .mk s id (cs.setKey (getTok (tok :: rest).flatten 0)
            (.mk (tok :: rest).flatten (some strId) .nil))
      else
        if tok = getTok s index then
          insertWalk (.mk s id cs) (index + 1) rest strId
        else
          splitNode (.mk s id cs) index (tok :: rest).flatten strId

/-- The terminator string appended to each suffix:
`TERMINATOR + str(str_id[0])`. -/
def termStr (fragId : Nat) : List Char := TERMINATOR :: Nat.toDigits 10 fragId

/-- `URLSuffixTree.insert(string, str_id)`: skip token-length < `min`
suffixes, append the fragment-unique terminator, walk the tree, and recurse
on `string[1:]` with the suffix id bumped.  The recursion consumes at least
one raw character per step, so `s.length + 1` units of fuel are enough
(`insert` below); running out of fuel and the IndexError of slicing an empty
string are both `none`. -/
def insertAll : Nat → Nat → Node → List Char → Nat × Nat → Option Node
  | 0, _, _, _, _ => none
  | fuel + 1, minLen, root, s, strId =>
    if ulen s < minLen then some root
    else
      let suffix := s ++ termStr strId.1
      let root' := insertWalk root 0 (tokens suffix) strId
      match sliceFrom s 1 with
      | none => none
      | some s' => insertAll fuel minLen root' s' (strId.1, strId.2 + 1)

def insert (minLen : Nat) (root : Node) (s : List Char) (strId : Nat × Nat) :
    Option Node :=
  insertAll (s.length + 1) minLen root s strId

/-- The empty tree root (`URLSuffixTreeNode()` holding `EMPTY_URL_STRING`). -/
def emptyRoot : Node := .mk [] none .nil

/-- Step 1 of `reconstruct`: build the suffix tree over all fragments,
inserting fragment `i` with identity `(i, 0)`. -/
def buildTree (frags : List (List Char)) : Option Node :=
  (List.range frags.length).foldlM
    (fun t i => insert MIN_OVERLAP t (frags.getD i []) (i, 0)) emptyRoot

/-! ## The index traversal (`dfs_join` in `main.py`)

`dfs_join(node, string, match_stack, join_array)` walks the tree depth
first.  The shared mutable `match_stack` is pushed before descending and
popped symmetrically afterwards, so its value at any node is a function of
the root path; we therefore pass it immutably.  `join_array` entries start
as the integer `0` and are overwritten with a copy of the stack when a node
with suffix id 0 is reached; we model an unset entry as `none`.

Two Python runtime errors are possible and are distinguished so that the
absence of the first one can be stated: reading `identity[1]` of a
terminator child whose identity is `None` (a `TypeError`), and writing
`join_array[f]` out of range (an `IndexError`). -/

inductive DfsErr where
  | noneIdentity
  | badIndex
deriving DecidableEq

/-- A recorded overlap candidate: `(owning fragment id, overlap raw text)`. -/
abbrev Cand := Nat × List Char

abbrev JoinArray := List (Option (List Cand))

/-- Does some child key begin with the terminator character?  (`term = [key
for key in node.children.keys() if key[0] == TERMINATOR]` — keys in real
trees are non-empty first tokens, so `key[0]` is the head.) -/
def Children.hasTermKey : Children → Bool
  | .nil => false
  | .cons k _ rest => (k.head? == some TERMINATOR) || rest.hasTermKey

/-- The `for t in range(len(term))` push loop: for each terminator-keyed
child in dictionary order, read its `identity[1]` (a `TypeError` if the
identity is `None`) and push `(identity[0], string)` when the suffix id is
nonzero. -/
def termPushes : Children → List Char → Except DfsErr (List Cand)
  | .nil, _ => .ok []
  | .cons k c rest, s =>
    if k.head? == some TERMINATOR then
      match c.identity with
      | none => .error .noneIdentity
      | some (g, off) => do
        let l ← termPushes rest s
        if off ≠ 0 then pure ((g, s) :: l) else pure l
    else
      termPushes rest s

mutual
def dfsNode (node : Node) (s : List Char) (stack : List Cand)
    (ja : JoinArray) : Except DfsErr JoinArray :=
  match node with
  | .mk _ id cs =>
    match id with
    | some (f, 0) =>
      -- join_array[node.identity[0]] = match_stack[:] ; return
      if f < ja.length then .ok (ja.set f (some stack)) else .error .badIndex
    | _ => do
      let pushes ←
        if cs.hasTermKey && decide (MIN_OVERLAP ≤ ulen s) then termPushes cs s
        else pure []
      dfsChildren cs s (stack ++ pushes) ja

def dfsChildren (cs : Children) (s : List Char) (stack : List Cand)
    (ja : JoinArray) : Except DfsErr JoinArray :=
  match cs with
  | .nil => .ok ja
  | .cons _ c rest => do
    let ja' ← dfsNode c (s ++ c.str) stack ja
    dfsChildren rest s stack ja'
end

/-- Steps 1–2 of `reconstruct` followed by the `len(x)` forcing on line 55:
build the tree, run the DFS from the root with the root's empty string, and
materialise every entry of `join_array` (any entry still holding the integer
`0` makes `len(x)` raise a `TypeError`, i.e. `none`). -/
def candidateLists (frags : List (List Char)) : Option (List (List Cand)) := do
  let t ← buildTree frags
  let ja ← (dfsNode t [] [] (List.replicate frags.length none)).toOption
  ja.mapM id

/-! ## The backtracking assembler (`stitch` in `main.py`) -/

/-- `list.index(v)` returning an option instead of raising `ValueError`. -/
def idxOfAux : List Int → Int → Nat → Option Nat
  | [], _, _ => none
  | x :: r, v, i => if x = v then some i else idxOfAux r v (i + 1)

def idxOf (l : List Int) (v : Int) : Option Nat := idxOfAux l v 0

/-- Python truthiness of `stitch`'s result value: `None` and the empty
string are falsy. -/
def truthy : Option (List Char) → Bool
  | none => false
  | some s => !s.isEmpty

/-- The merge loop of `stitch`'s base case.  Each iteration finds the first
fragment `c2` whose assigned predecessor is `cur` and the first fragment
`nx` whose predecessor is `c2`, joins `nx`'s string onto `c2`'s with
`overlaps[nx]`, and aliases entry `nx` to the merged object; either
`.index` call raising `ValueError` ends the loop.  All entries merged so
far alias one object, recorded as the index set `group` with current raw
text `merged`; unmerged entries still hold their original fragment.  The
loop provably makes progress (each visited `c2` is new), so `st.length + 1`
units of fuel are never exhausted; exhaustion is mapped to `none` anyway. -/
def traceLoop (st : List Int) (ov : List Nat) (frags : List (List Char)) :
    Nat → Int → List Nat → List Char → Option (List Nat × List Char)
  | 0, _, _, _ => none
  | fuel + 1, cur, group, merged =>
    match idxOf st cur with
    | none => some (group, merged)
    | some c2 =>
      match idxOf st (Int.ofNat c2) with
      | none => some (group, merged)
      | some nx =>
        -- stitch_attempt[cur].join(stitch_attempt[next], overlaps[next])
        if c2 < frags.length ∧ nx < frags.length then
          match ov.get? nx with
          | none => none
          | some k =>
            let base := if c2 ∈ group then merged else frags.getD c2 []
            let addend := if nx ∈ group then merged else frags.getD nx []
            match join base addend k with
            | none => none
            | some m' =>
              traceLoop st ov frags fuel (Int.ofNat c2) (c2 :: nx :: group) m'
        else none

/-- `stitch`'s base case (`index == len(join_array)`): deep-copy the
fragments, run the merge loop from `cur_index = -1`, then report success
iff every entry of the attempt compares equal (`__eq__`, i.e. raw text) to
entry 0, returning the decoded text of entry 0. -/
def stitchAttempt (st : List Int) (ov : List Nat) (frags : List (List Char)) :
    Option (Option (List Char)) :=
  match traceLoop st ov frags (st.length + 1) (-1) [] [] with
  | none => none
  | some (group, merged) =>
    match frags with
    | [] => none  -- stitch_attempt[0] raises IndexError
    | f0 :: _ =>
      let value : Nat → List Char := fun j =>
        if j ∈ group then merged else frags.getD j []
      let v0 := if 0 ∈ group then merged else f0
      if (List.range frags.length).all (fun j => value j == v0) then
        some (some (decode v0))
      else
        some none

/-- The candidate loop of `stitch` (the `for i in range(len(...))` walking
the candidate list back to front).  `next` is the recursion into the
remaining search positions.  `seen` is restored after a failed candidate
(the explicit unflag), while the writes into `stitchings`/`overlaps` are
kept, exactly as in Python; writes left at deeper levels by an abandoned
branch are dead, because every level rewrites its own entry before the base
case reads the arrays, so passing only the locally updated arrays onward is
faithful. -/
def candLoop
    (next : List Bool → List Int → List Nat → Option (Option (List Char)))
    (si : Nat) : List Cand → List Bool → List Int → List Nat →
    Option (Option (List Char))
  | [], _, _, _ => some none  -- loop exhausted: fall off the end, return None
  | (g, ovs) :: more, seen, st, ov =>
    match seen.get? g with
    | none => none  -- seen_array[g] raises IndexError
    | some b =>
      if b then candLoop next si more seen st ov
      else
        if si < st.length ∧ si < ov.length then
          let st' := st.set si (Int.ofNat g)
          let ov' := ov.set si (ulen ovs)
          match next (seen.set g true) st' ov' with
          | none => none
          | some r => if truthy r then some r else candLoop next si more seen st' ov'
        else none  -- stitchings[si] / overlaps[si] raises IndexError

/-- `stitch(join_array, index, search, seen_array, stitchings, overlaps,
fragments)`.  `rem` is the not-yet-consumed tail of `search` (so
`search[index]` is its head, and an exhausted `rem` with `index <
len(join_array)` is `search[index]`'s IndexError).  An empty candidate list
assigns `-1` (chain head) and recurses; on a falsy result the branch falls
off the end of the function, returning `None`. -/
def stitch (ja : List (List Cand)) (frags : List (List Char)) :
    List Nat → Nat → List Bool → List Int → List Nat →
    Option (Option (List Char))
  | rem, index, seen, st, ov =>
    if index = ja.length then stitchAttempt st ov frags
    else
      match rem with
      | [] => none  -- search[index] raises IndexError
      | si :: rest =>
        match ja.get? si with
        | none => none  -- join_array[search[index]] raises IndexError
        | some cands =>
          if cands.isEmpty then
            if si < st.length then
              match stitch ja frags rest (index + 1) seen (st.set si (-1)) ov with
              | none => none
              | some r => if truthy r then some r else some none
            else none  -- stitchings[si] raises IndexError
          else
            candLoop (fun seen' st' ov' => stitch ja frags rest (index + 1) seen' st' ov')
              si cands.reverse seen st ov

/-- Stable insertion into an ascending-by-key list: a new element goes
before the first strictly larger key, i.e. after existing equal keys. -/
def insSorted (key : Nat → Nat) (x : Nat) : List Nat → List Nat
  | [] => [x]
  | y :: ys => if key x ≤ key y then x :: y :: ys else y :: insSorted key x ys

/-- Python's stable ascending `list.sort(key=...)` (stability determines the
result uniquely, so any stable ascending sort is the right model). -/
def sortByKey (key : Nat → Nat) : List Nat → List Nat
  | [] => []
  | x :: xs => insSorted key x (sortByKey key xs)

/-- One full search attempt: sort the fragment indices by candidate-list
size (stable ascending) and run `stitch` with fresh `seen`, `stitchings`
and `overlaps` arrays. -/
def plainStitch (ja : List (List Cand)) (frags : List (List Char)) :
    Option (Option (List Char)) :=
  let n := frags.length
  let search := sortByKey (fun x => (ja.getD x []).length) (List.range n)
  stitch ja frags search 0 (List.replicate n false)
    (List.replicate n 0) (List.replicate n 0)

/-- The fallback loop of `reconstruct` (lines 62–73): for each fragment `j`
in original index order, force its candidate list empty and run a full
attempt; a truthy result breaks out, a crash propagates, and after the last
iteration whatever `result` holds is returned.  An empty range leaves
`result` unbound, so `print(result)` raises `NameError` (`none`). -/
def forcedGo (ja : List (List Cand)) (frags : List (List Char)) :
    List Nat → Option (Option (List Char))
  | [] => none
  | [j] => plainStitch (ja.set j []) frags
  | j :: rest =>
    match plainStitch (ja.set j []) frags with
    | none => none
    | some r => if truthy r then some r else forcedGo ja frags rest

/-- `reconstruct`: build the candidate lists, then either run the single
attempt (some fragment has an empty candidate list, hence is an unambiguous
chain-head candidate) or the forced-head fallback loop. -/
def reconstruct (frags : List (List Char)) : Option (Option (List Char)) := do
  let ja ← candidateLists frags
  if ja.any List.isEmpty then
    plainStitch ja frags
  else
    forcedGo ja frags (List.range frags.length)

/-! ## Auxiliary definitions used by statements and invariants -/

/-- `URLString.__getitem__` with an integer key, exactly as Python computes
it: the raw slice `self.string[true_positions[k] : true_positions[k+1]]`
(`none` is the IndexError).  `getTokTP_eq` shows this is the `k`-th entry of
`tokens`, which is what the tree code uses via `getTok`. -/
def getTokTP (s : List Char) (k : Nat) : Option (List Char) := do
  let i ← (truePositions s).get? k
  let j ← (truePositions s).get? (k + 1)
  pure ((s.drop i).take (j - i))

/-- Shape of a token that can appear strictly before the last position of a
token list produced by the scan: a single ordinary character or a full
percent triplet. -/
def midTokOK (t : List Char) : Bool :=
  match t with
  | [c] => !(c == '%') && !(c == TERMINATOR)
  | [a, _, _] => a == '%'
  | _ => false

/-- Shape of a final token: a terminator token, a (possibly truncated)
percent token, or a single character. -/
def lastTokOK (t : List Char) : Bool :=
  match t with
  | [] => false
  | c :: r =>
    if c = TERMINATOR then true
    else if c = '%' then decide (r.length ≤ 2)
    else r.isEmpty

/-- A list of tokens as the scan can produce them (`validToks_tokens`); in
particular no token before the last one begins with the terminator. -/
def validToks : List (List Char) → Bool
  | [] => true
  | [t] => lastTokOK t
  | t :: rest => midTokOK t && validToks rest

/-- Does the last token of `s` begin with the terminator character? -/
def lastTokTerm (s : List Char) : Bool :=
  match (tokens s).getLast? with
  | some t => t.head? == some TERMINATOR
  | none => false

/-- Structural well-formedness of the suffix tree, the invariant
established by `emptyRoot` and preserved by `insert`:
every child is keyed by the raw text of the first token of its (non-empty)
edge string, the edge string is a valid token sequence, and an edge whose
final token begins with the terminator belongs to a node carrying an
identity.  Since a valid token sequence has terminator-starting tokens only
in final position, this implies that every child whose *key* begins with
the terminator carries an identity. -/
def childOK (k : List Char) (c : Node) : Bool :=
  (k == getTok c.str 0) && !(c.str.isEmpty) && validToks (tokens c.str) &&
    (!(lastTokTerm c.str) || c.identity.isSome)

mutual
def nodeWF : Node → Bool
  | .mk _ _ cs => childrenWF cs

def childrenWF : Children → Bool
  | .nil => true
  | .cons k c rest => childOK k c && nodeWF c && childrenWF rest
end

mutual
/-- The property claimed of the tree: every child whose key begins with the
terminator token carries a non-`None` identity (recursively, everywhere in
the tree). -/
def nodeTermIds : Node → Bool
  | .mk _ _ cs => childrenTermIds cs

def childrenTermIds : Children → Bool
  | .nil => true
  | .cons k c rest =>
    (!(k.head? == some TERMINATOR) || c.identity.isSome) &&
      nodeTermIds c && childrenTermIds rest
end

/-! # Theorems

The development above is the embedding; everything from here on is proof.
-/

/-! ### Equation lemmas for the two views of the scan -/

theorem tokens_nil : tokens [] = [] := rfl

theorem tokens_pct (a b : Char) (r : List Char) :
    tokens ('%' :: a :: b :: r) = ['%', a, b] :: tokens r := rfl

theorem tokens_pct_short (r : List Char)
    (h : ∀ a b rest, r ≠ a :: b :: rest) : tokens ('%' :: r) = [('%' :: r)] := by
  match r with
  | [] => rfl
  | [a] => rfl
  | a :: b :: rest => exact absurd rfl (h a b rest)

theorem tokens_term (r : List Char) : tokens (TERMINATOR :: r) = [TERMINATOR :: r] := by
  rw [tokens.eq_def]; simp [TERMINATOR]

theorem tokens_other (c : Char) (r : List Char) (h1 : c ≠ '%') (h2 : c ≠ TERMINATOR) :
    tokens (c :: r) = [c] :: tokens r := by
  rw [tokens.eq_def]; simp [h1, h2]

theorem tpAux_pct (a b : Char) (r : List Char) (i : Nat) :
    truePositionsAux ('%' :: a :: b :: r) i = i :: truePositionsAux r (i + 3) := rfl

theorem tpAux_pct_short (r : List Char) (i : Nat)
    (h : ∀ a b rest, r ≠ a :: b :: rest) : truePositionsAux ('%' :: r) i = [i] := by
  match r with
  | [] => rfl
  | [a] => rfl
  | a :: b :: rest => exact absurd rfl (h a b rest)

theorem tpAux_term (r : List Char) (i : Nat) :
    truePositionsAux (TERMINATOR :: r) i = [i] := by
  rw [truePositionsAux.eq_def]; simp [TERMINATOR]

theorem tpAux_other (c : Char) (r : List Char) (i : Nat) (h1 : c ≠ '%')
    (h2 : c ≠ TERMINATOR) :
    truePositionsAux (c :: r) i = i :: truePositionsAux r (i + 1) := by
  rw [truePositionsAux.eq_def]; simp [h1, h2]

/-! ### Correspondence between `truePositions` and `tokens` -/

/-- The tokens of any string concatenate back to it: the scan loses nothing
and accepts everything. -/
theorem tokens_flatten (s : List Char) : (tokens s).flatten = s := by
  induction s using tokens.induct with
  | case1 => rfl
  | case2 a b rest ih => simp [tokens_pct, ih]
  | case3 r h => simp [tokens_pct_short r (fun a b rest hr => h a b rest hr)]
  | case4 r _ => simp [tokens_term]
  | case5 c r h1 h2 ih => simp [tokens_other c r h1 h2, ih]

theorem tokens_cons_ne (c : Char) (r : List Char) : tokens (c :: r) ≠ [] := by
  by_cases h1 : c = '%'
  · subst h1
    match r with
    | [] => simp [tokens]
    | [a] => simp [tokens]
    | a :: b :: rest => simp [tokens_pct]
  · by_cases h2 : c = TERMINATOR
    · subst h2; simp [tokens_term]
    · simp [tokens_other c r h1 h2]

theorem tokens_mem_ne (s t : List Char) : t ∈ tokens s → t ≠ [] := by
  induction s using tokens.induct with
  | case1 => intro h; simp [tokens] at h
  | case2 a b rest ih =>
    intro h
    rw [tokens_pct, List.mem_cons] at h
    rcases h with h | h
    · simp [h]
    · exact ih h
  | case3 r hr =>
    intro h
    rw [tokens_pct_short r (fun a b rest h' => hr a b rest h')] at h
    simp at h; simp [h]
  | case4 r _ =>
    intro h
    rw [tokens_term] at h; simp at h; simp [h]
  | case5 c r h1 h2 ih =>
    intro h
    rw [tokens_other c r h1 h2, List.mem_cons] at h
    rcases h with h | h
    · simp [h]
    · exact ih h

/-- Shifting the starting offset shifts every recorded position. -/
theorem tpAux_add (s : List Char) (i j : Nat) :
    truePositionsAux s (i + j) = (truePositionsAux s i).map (· + j) := by
  induction s using tokens.induct generalizing i with
  | case1 => rfl
  | case2 a b rest ih =>
    rw [tpAux_pct, tpAux_pct]
    have : i + j + 3 = (i + 3) + j := by omega
    rw [this, ih]
    simp
  | case3 r h =>
    rw [tpAux_pct_short r _ (fun a b rest h' => h a b rest h'),
      tpAux_pct_short r _ (fun a b rest h' => h a b rest h')]
    simp
  | case4 r _ => rw [tpAux_term, tpAux_term]; simp
  | case5 c r h1 h2 ih =>
    rw [tpAux_other c r _ h1 h2, tpAux_other c r _ h1 h2]
    have : i + j + 1 = (i + 1) + j := by omega
    rw [this, ih]
    simp

/-- One position is recorded per token. -/
theorem tpAux_length (s : List Char) (i : Nat) :
    (truePositionsAux s i).length = (tokens s).length := by
  induction s using tokens.induct generalizing i with
  | case1 => rfl
  | case2 a b rest ih => rw [tpAux_pct, tokens_pct]; simp [ih]
  | case3 r h =>
    rw [tpAux_pct_short r _ (fun a b rest h' => h a b rest h'),
      tokens_pct_short r (fun a b rest h' => h a b rest h')]
    rfl
  | case4 r _ => rw [tpAux_term, tokens_term]; rfl
  | case5 c r h1 h2 ih => rw [tpAux_other c r _ h1 h2, tokens_other c r h1 h2]; simp [ih]

theorem truePositions_length (s : List Char) :
    (truePositions s).length = (tokens s).length + 1 := by
  simp [truePositions, tpAux_length]

/-- `len(URLString)` counts tokens. -/
theorem ulen_eq_tokens (s : List Char) : ulen s = (tokens s).length := by
  simp [ulen, truePositions_length]

theorem truePositions_cons_pct (a b : Char) (rest : List Char) :
    truePositions ('%' :: a :: b :: rest) = 0 :: (truePositions rest).map (· + 3) := by
  have h3 : truePositionsAux rest 3 = (truePositionsAux rest 0).map (· + 3) := by
    have := tpAux_add rest 0 3
    simpa using this
  simp only [truePositions, tpAux_pct, h3, List.cons_append, List.map_append]
  simp

theorem truePositions_cons_other (c : Char) (rest : List Char) (h1 : c ≠ '%')
    (h2 : c ≠ TERMINATOR) :
    truePositions (c :: rest) = 0 :: (truePositions rest).map (· + 1) := by
  have h3 : truePositionsAux rest 1 = (truePositionsAux rest 0).map (· + 1) := by
    have := tpAux_add rest 0 1
    simpa using this
  simp only [truePositions, tpAux_other c rest 0 h1 h2, h3, List.cons_append,
    List.map_append]
  simp

/-- The `k`-th true position is a whole-token boundary: the raw text on each
side of it is exactly the flattening/decomposition of the corresponding
token-list split. -/
theorem tp_get_spec (s : List Char) :
    ∀ k p, (truePositions s).get? k = some p →
      p ≤ s.length ∧ tokens (s.drop p) = (tokens s).drop k ∧
        tokens (s.take p) = (tokens s).take k := by
  induction s using tokens.induct with
  | case1 =>
    intro k p hp
    match k with
    | 0 => simp [truePositions, truePositionsAux] at hp; simp [hp, tokens]
    | k + 1 => simp [truePositions, truePositionsAux, List.get?] at hp
  | case2 a b rest ih =>
    intro k p hp
    rw [truePositions_cons_pct] at hp
    match k with
    | 0 =>
      simp at hp
      subst hp
      simp [tokens_pct, tokens_nil]
    | k + 1 =>
      simp only [List.get?_cons_succ, List.get?_map] at hp
      rcases hq : (truePositions rest).get? k with _ | q
      · rw [hq] at hp; simp at hp
      · rw [hq] at hp
        simp at hp
        obtain ⟨hq1, hq2, hq3⟩ := ih k q hq
        refine ⟨by simp; omega, ?_, ?_⟩
        · have hdrop : ('%' :: a :: b :: rest).drop p = rest.drop q := by
            rw [← hp]
            show ('%' :: a :: b :: rest).drop (q + 1 + 1 + 1) = rest.drop q
            simp [List.drop_succ_cons]
          rw [hdrop, hq2, tokens_pct, List.drop_succ_cons]
        · have htake : ('%' :: a :: b :: rest).take p = '%' :: a :: b :: rest.take q := by
            rw [← hp]
            show ('%' :: a :: b :: rest).take (q + 1 + 1 + 1) = '%' :: a :: b :: rest.take q
            simp [List.take_succ_cons]
          rw [htake, tokens_pct, hq3, tokens_pct, List.take_succ_cons]
  | case3 r h =>
    intro k p hp
    have hts := tokens_pct_short r (fun a b rest h' => h a b rest h')
    have htp := tpAux_pct_short r 0 (fun a b rest h' => h a b rest h')
    rw [truePositions, htp] at hp
    match k with
    | 0 =>
      simp at hp
      subst hp
      simp [hts, tokens]
    | 1 =>
      simp at hp
      subst hp
      simp [hts, tokens]
    | k + 2 => simp [List.get?] at hp
  | case4 r _ =>
    intro k p hp
    rw [truePositions, tpAux_term] at hp
    match k with
    | 0 =>
      simp at hp
      subst hp
      simp [tokens_term, tokens]
    | 1 =>
      simp at hp
      subst hp
      simp [tokens_term, tokens]
    | k + 2 => simp [List.get?] at hp
  | case5 c r h1 h2 ih =>
    intro k p hp
    rw [truePositions_cons_other c r h1 h2] at hp
    match k with
    | 0 =>
      simp at hp
      subst hp
      simp [tokens_other c r h1 h2, tokens_nil]
    | k + 1 =>
      simp only [List.get?_cons_succ, List.get?_map] at hp
      rcases hq : (truePositions r).get? k with _ | q
      · rw [hq] at hp; simp at hp
      · rw [hq] at hp
        simp at hp
        obtain ⟨hq1, hq2, hq3⟩ := ih k q hq
        refine ⟨by simp; omega, ?_, ?_⟩
        · have hdrop : (c :: r).drop p = r.drop q := by
            rw [← hp, List.drop_succ_cons]
          rw [hdrop, hq2, tokens_other c r h1 h2, List.drop_succ_cons]
        · have htake : (c :: r).take p = c :: r.take q := by
            rw [← hp, List.take_succ_cons]
          rw [htake, tokens_other c _ h1 h2, hq3, tokens_other c r h1 h2,
            List.take_succ_cons]

/-! ### Token access, join, and token-shape lemmas -/

theorem lastTokOK_nil : lastTokOK [] = false := rfl

theorem lastTokOK_cons (c : Char) (r : List Char) :
    lastTokOK (c :: r) =
      (if c = TERMINATOR then true
       else if c = '%' then decide (r.length ≤ 2) else r.isEmpty) := rfl

theorem midTokOK_nil : midTokOK [] = false := rfl

theorem midTokOK_single (c : Char) :
    midTokOK [c] = (!(c == '%') && !(c == TERMINATOR)) := rfl

theorem midTokOK_pair (a b : Char) : midTokOK [a, b] = false := rfl

theorem midTokOK_triple (a b c : Char) : midTokOK [a, b, c] = (a == '%') := rfl

theorem midTokOK_long (a b c d : Char) (r : List Char) :
    midTokOK (a :: b :: c :: d :: r) = false := rfl

/-- Python's `true_positions`-based integer indexing returns exactly the
`k`-th token of the structural decomposition. -/
theorem getTokTP_eq (s : List Char) (k : Nat) : getTokTP s k = (tokens s).get? k := by
  have hlen := truePositions_length s
  rcases h1 : (truePositions s).get? k with _ | i
  · have h1l := (List.get?_eq_none (l := truePositions s) (n := k)).mp h1
    have ht : (tokens s).get? k = none := by
      rw [List.get?_eq_none]; omega
    unfold getTokTP
    rw [h1, ht]
    rfl
  · rcases h2 : (truePositions s).get? (k + 1) with _ | j
    · have h2l := (List.get?_eq_none (l := truePositions s) (n := k + 1)).mp h2
      have ht : (tokens s).get? k = none := by
        rw [List.get?_eq_none]; omega
      unfold getTokTP
      rw [h1, h2, ht]
      rfl
    · have h2l : k + 1 < (truePositions s).length := by
        by_contra hcon
        push_neg at hcon
        rw [(List.get?_eq_none (l := truePositions s) (n := k + 1)).mpr hcon] at h2
        cases h2
      have hk : k < (tokens s).length := by omega
      obtain ⟨hi_le, hdi, _⟩ := tp_get_spec s k i h1
      obtain ⟨hj_le, hdj, _⟩ := tp_get_spec s (k + 1) j h2
      have hsi : s.drop i = ((tokens s).drop k).flatten := by
        rw [← tokens_flatten (s.drop i), hdi]
      have hsj : s.drop j = ((tokens s).drop (k + 1)).flatten := by
        rw [← tokens_flatten (s.drop j), hdj]
      set t := (tokens s).get ⟨k, hk⟩ with ht
      have hcons : (tokens s).drop k = t :: (tokens s).drop (k + 1) := by
        rw [ht]
        exact List.drop_eq_getElem_cons hk
      have hsplit : s.drop i = t ++ s.drop j := by
        rw [hsi, hcons, List.flatten_cons, hsj]
      have hlen2 : j - i = t.length := by
        have := congrArg List.length hsplit
        simp at this
        omega
      have htake : (s.drop i).take (j - i) = t := by
        rw [hsplit, hlen2, List.take_left]
      unfold getTokTP
      rw [h1, h2]
      show some ((s.drop i).take (j - i)) = (tokens s).get? k
      rw [htake, List.get?_eq_get hk]

/-- Claim C5's core fact about `join`: for an in-range token count `k`, the
join appends exactly the raw text of `t`'s tokens from the `k`-th one on —
the cut is at a whole-token boundary. -/
theorem join_spec (s t : List Char) (k : Nat) (h : k ≤ ulen t) :
    join s t k = some (s ++ ((tokens t).drop k).flatten) := by
  rcases Nat.eq_zero_or_pos k with hk | hk
  · subst hk
    simp [join, sliceFrom, tokens_flatten]
  · have hk0 : k ≠ 0 := by omega
    have hlt : k < (truePositions t).length := by
      rw [truePositions_length]
      rw [ulen_eq_tokens] at h
      omega
    have hget := List.get?_eq_get hlt
    set p := (truePositions t).get ⟨k, hlt⟩ with hp
    obtain ⟨hple, hdp, _⟩ := tp_get_spec t k p hget
    have hflat : t.drop p = ((tokens t).drop k).flatten := by
      rw [← tokens_flatten (t.drop p), hdp]
    unfold join sliceFrom
    rw [if_neg hk0, hget]
    show some (s ++ t.drop p) = _
    rw [hflat]

/-- Appending text never loses tokens of the prefix. -/
theorem tokens_append_le (a b : List Char) :
    (tokens a).length ≤ (tokens (a ++ b)).length := by
  induction a using tokens.induct with
  | case1 => simp [tokens_nil]
  | case2 x y rest ih =>
    have he : ('%' :: x :: y :: rest) ++ b = '%' :: x :: y :: (rest ++ b) := rfl
    rw [he, tokens_pct, tokens_pct]
    simpa using ih
  | case3 r h =>
    rw [tokens_pct_short r (fun a b rest h' => h a b rest h')]
    have he : ('%' :: r) ++ b = '%' :: (r ++ b) := rfl
    rw [he]
    have hne := tokens_cons_ne '%' (r ++ b)
    have := List.length_pos.mpr hne
    simpa using this
  | case4 r _ =>
    rw [tokens_term]
    have he : (TERMINATOR :: r) ++ b = TERMINATOR :: (r ++ b) := rfl
    rw [he, tokens_term]
    exact Nat.le_refl 1
  | case5 c r h1 h2 ih =>
    have he : (c :: r) ++ b = c :: (r ++ b) := rfl
    rw [he, tokens_other c r h1 h2, tokens_other c _ h1 h2]
    simpa using ih

theorem validToks_nil : validToks [] = true := rfl

theorem validToks_singleton (t : List Char) : validToks [t] = lastTokOK t := rfl

theorem validToks_cons2 (t x : List Char) (xs : List (List Char)) :
    validToks (t :: x :: xs) = (midTokOK t && validToks (x :: xs)) := rfl

theorem lastTokOK_singleton (c : Char) : lastTokOK [c] = true := by
  rw [lastTokOK_cons]
  by_cases h1 : c = TERMINATOR
  · simp [h1]
  · by_cases h2 : c = '%'
    · simp [h1, h2]
    · simp [h1, h2]

theorem midTok_last (t : List Char) : midTokOK t → lastTokOK t := by
  rcases t with _ | ⟨c, _ | ⟨c2, _ | ⟨c3, _ | ⟨c4, r⟩⟩⟩⟩
  · intro h; rw [midTokOK_nil] at h; cases h
  · intro _; exact lastTokOK_singleton c
  · intro h; rw [midTokOK_pair] at h; cases h
  · intro h
    rw [midTokOK_triple] at h
    have hc : c = '%' := by simpa using h
    subst hc
    rw [lastTokOK_cons]
    simp [TERMINATOR]
  · intro h; rw [midTokOK_long] at h; cases h

theorem midTok_ne (t : List Char) : midTokOK t → t ≠ [] := by
  intro h
  rcases t with _ | _
  · rw [midTokOK_nil] at h; cases h
  · simp

theorem lastTok_ne (t : List Char) : lastTokOK t → t ≠ [] := by
  intro h
  rcases t with _ | _
  · rw [lastTokOK_nil] at h; cases h
  · simp

theorem validToks_tail (t : List Char) (l : List (List Char)) :
    validToks (t :: l) → validToks l := by
  intro h
  cases l with
  | nil => rfl
  | cons x xs =>
    rw [validToks_cons2] at h
    exact (Bool.and_elim_right h)

theorem validToks_head_last (t : List Char) (l : List (List Char)) :
    validToks (t :: l) → lastTokOK t := by
  intro h
  cases l with
  | nil => rw [validToks_singleton] at h; exact h
  | cons x xs =>
    rw [validToks_cons2] at h
    exact midTok_last t (Bool.and_elim_left h)

theorem validToks_drop (l : List (List Char)) (k : Nat) :
    validToks l → validToks (l.drop k) := by
  induction l generalizing k with
  | nil => intro h; simpa using h
  | cons t rest ih =>
    intro h
    match k with
    | 0 => exact h
    | k + 1 => exact ih k (validToks_tail t rest h)

theorem validToks_take (l : List (List Char)) (k : Nat) :
    validToks l → validToks (l.take k) := by
  induction l generalizing k with
  | nil => intro h; simpa using h
  | cons t rest ih =>
    intro h
    match k with
    | 0 => rfl
    | k + 1 =>
      rw [List.take_succ_cons]
      cases rest with
      | nil =>
        simp only [List.take_nil]
        rwa [validToks_singleton, ← validToks_singleton t]
      | cons x xs =>
        rw [validToks_cons2] at h
        have hmid := Bool.and_elim_left h
        have hval := Bool.and_elim_right h
        rcases hxt : (x :: xs).take k with _ | ⟨y, ys⟩
        · rw [validToks_singleton]
          exact midTok_last t hmid
        · have hv : validToks ((x :: xs).take k) = true := ih k hval
          rw [hxt] at hv
          rw [validToks_cons2]
          exact Bool.and_intro hmid hv

theorem lastTok_tokens (t : List Char) : lastTokOK t → tokens t = [t] := by
  rcases t with _ | ⟨c, r⟩
  · intro h; rw [lastTokOK_nil] at h; cases h
  · intro h
    rw [lastTokOK_cons] at h
    by_cases h1 : c = TERMINATOR
    · subst h1; exact tokens_term r
    · rw [if_neg h1] at h
      by_cases h2 : c = '%'
      · subst h2
        rw [if_pos rfl] at h
        have hr : r.length ≤ 2 := by simpa using h
        match r, hr with
        | [], _ => rfl
        | [a], _ => rfl
        | [a, b], _ => rfl
        | a :: b :: c :: rest, hr => simp at hr
      · rw [if_neg h2] at h
        have : r = [] := by simpa using h
        subst this
        rw [tokens_other c [] h2 h1]
        rfl

/-- Refolding: a valid token list is re-tokenized to itself, so storing the
flattened remainder of a suffix as an edge string preserves its token
decomposition. -/
theorem validToks_flatten (l : List (List Char)) :
    validToks l → tokens l.flatten = l := by
  induction l with
  | nil => intro _; rfl
  | cons t rest ih =>
    intro h
    cases rest with
    | nil =>
      rw [validToks_singleton] at h
      simp only [List.flatten_cons, List.flatten_nil, List.append_nil]
      exact lastTok_tokens t h
    | cons x xs =>
      rw [validToks_cons2] at h
      have hmid := Bool.and_elim_left h
      have hval := Bool.and_elim_right h
      have ihr := ih hval
      have hfl : (t :: x :: xs).flatten = t ++ (x :: xs).flatten := rfl
      rw [hfl]
      revert ihr
      generalize (x :: xs).flatten = R
      intro ihr
      rcases t with _ | ⟨c, _ | ⟨c2, _ | ⟨c3, _ | ⟨c4, rr⟩⟩⟩⟩
      · rw [midTokOK_nil] at hmid; cases hmid
      · rw [midTokOK_single] at hmid
        simp at hmid
        rw [List.singleton_append, tokens_other c _ hmid.1 hmid.2, ihr]
      · rw [midTokOK_pair] at hmid; cases hmid
      · rw [midTokOK_triple] at hmid
        have hc : c = '%' := by simpa using hmid
        subst hc
        have he : ['%', c2, c3] ++ R = '%' :: c2 :: c3 :: R := rfl
        rw [he, tokens_pct, ihr]
      · rw [midTokOK_long] at hmid; cases hmid

/-- Every token list the scan produces is valid. -/
theorem validToks_tokens (s : List Char) : validToks (tokens s) := by
  induction s using tokens.induct with
  | case1 => rfl
  | case2 a b rest ih =>
    rw [tokens_pct]
    cases htr : tokens rest with
    | nil =>
      rw [validToks_singleton, lastTokOK_cons]
      simp [TERMINATOR]
    | cons x xs =>
      rw [validToks_cons2, midTokOK_triple]
      rw [htr] at ih
      simpa using ih
  | case3 r h =>
    rw [tokens_pct_short r (fun a b rest h' => h a b rest h')]
    have hlen : r.length ≤ 1 := by
      rcases r with _ | ⟨x, _ | ⟨y, rr⟩⟩
      · simp
      · simp
      · exact absurd rfl (h x y rr)
    rw [validToks_singleton, lastTokOK_cons]
    have : ¬('%' : Char) = TERMINATOR := by simp [TERMINATOR]
    rw [if_neg this, if_pos rfl]
    simpa using by omega
  | case4 r _ =>
    rw [tokens_term, validToks_singleton, lastTokOK_cons]
    simp
  | case5 c r h1 h2 ih =>
    rw [tokens_other c r h1 h2]
    cases htr : tokens r with
    | nil => rw [validToks_singleton]; exact lastTokOK_singleton c
    | cons x xs =>
      rw [validToks_cons2, midTokOK_single]
      rw [htr] at ih
      simp [h1, h2]
      simpa using ih

/-- Decoding a non-empty raw text is non-empty (every decode step emits at
least one character). -/
theorem decode_ne (s : List Char) (h : s ≠ []) : decode s ≠ [] := by
  rw [decode.eq_def]
  rcases s with _ | ⟨c, r⟩
  · exact absurd rfl h
  · split
    · simp_all
    · split <;> simp
    · simp
    · simp

/-! ### Structural invariant of the suffix tree -/

theorem getD_of_get? {α : Type} : ∀ (l : List α) (k : Nat) (v d : α),
    l.get? k = some v → l.getD k d = v
  | [], _, _, _ => by intro h; cases h
  | x :: xs, 0, v, d => by
    intro h
    have hx : x = v := by injection h
    subst hx
    rfl
  | x :: xs, k + 1, v, d => by
    intro h
    rw [List.getD_cons_succ]
    exact getD_of_get? xs k v d h

theorem tokens_ne (s : List Char) (h : s ≠ []) : tokens s ≠ [] := by
  rcases s with _ | ⟨c, r⟩
  · exact absurd rfl h
  · exact tokens_cons_ne c r

theorem ulen_pos (s : List Char) (h : s ≠ []) : 1 ≤ ulen s := by
  rw [ulen_eq_tokens]
  exact List.length_pos.mpr (tokens_ne s h)

theorem midTok_head (t : List Char) (h : midTokOK t) :
    t.head? ≠ some TERMINATOR := by
  rcases t with _ | ⟨c, _ | ⟨c2, _ | ⟨c3, _ | ⟨c4, r⟩⟩⟩⟩
  · rw [midTokOK_nil] at h; cases h
  · rw [midTokOK_single] at h
    simp at h
    simpa using h.2
  · rw [midTokOK_pair] at h; cases h
  · rw [midTokOK_triple] at h
    have : c = '%' := by simpa using h
    subst this
    simp [TERMINATOR]
  · rw [midTokOK_long] at h; cases h

theorem valid_flatten_ne (t : List Char) (ts : List (List Char))
    (h : validToks (t :: ts)) : (t :: ts).flatten ≠ [] := by
  have ht : t ≠ [] := lastTok_ne t (validToks_head_last t ts h)
  simp only [List.flatten_cons]
  intro hc
  rcases List.append_eq_nil.mp hc with ⟨h1, _⟩
  exact ht h1

theorem nodeWF_mk (s : List Char) (id : Option (Nat × Nat)) (cs : Children) :
    nodeWF (.mk s id cs) = childrenWF cs := rfl

theorem childrenWF_cons (k : List Char) (c : Node) (rest : Children) :
    childrenWF (.cons k c rest) = (childOK k c && nodeWF c && childrenWF rest) := rfl

theorem childOK_iff (k : List Char) (c : Node) :
    childOK k c = true ↔
      k = getTok c.str 0 ∧ c.str ≠ [] ∧ validToks (tokens c.str) = true ∧
        (lastTokTerm c.str = true → c.identity.isSome = true) := by
  unfold childOK
  constructor
  · intro h
    simp at h
    obtain ⟨⟨⟨h1, h2⟩, h3⟩, h4⟩ := h
    refine ⟨h1, by simpa using h2, h3, ?_⟩
    intro h5
    rcases h4 with h4 | h4
    · rw [h5] at h4; cases h4
    · exact h4
  · intro ⟨h1, h2, h3, h4⟩
    simp [h1, h2, h3]
    rcases hlt : lastTokTerm c.str with _ | _
    · left; rfl
    · right; exact h4 hlt

theorem childrenWF_find : ∀ (cs : Children) (k : List Char) (c : Node),
    childrenWF cs = true → cs.find? k = some c →
      childOK k c = true ∧ nodeWF c = true
  | .nil, k, c => by
    intro _ hf
    simp [Children.find?] at hf
  | .cons k' c' rest, k, c => by
    intro hwf hf
    rw [childrenWF_cons] at hwf
    simp at hwf
    obtain ⟨⟨h1, h2⟩, h3⟩ := hwf
    unfold Children.find? at hf
    by_cases hk : k' = k
    · rw [if_pos hk] at hf
      obtain rfl : c' = c := by injection hf
      subst hk
      exact ⟨h1, h2⟩
    · rw [if_neg hk] at hf
      exact childrenWF_find rest k c h3 hf

theorem childrenWF_setKey : ∀ (cs : Children) (k : List Char) (c : Node),
    childrenWF cs = true → childOK k c = true → nodeWF c = true →
      childrenWF (cs.setKey k c) = true
  | .nil, k, c => by
    intro _ hok hn
    unfold Children.setKey
    rw [childrenWF_cons]
    simp [hok, hn]
    rfl
  | .cons k' c' rest, k, c => by
    intro hwf hok hn
    rw [childrenWF_cons] at hwf
    simp at hwf
    obtain ⟨⟨h1, h2⟩, h3⟩ := hwf
    unfold Children.setKey
    by_cases hk : k' = k
    · rw [if_pos hk]
      rw [childrenWF_cons]
      subst hk
      simp [hok, hn, h3]
    · rw [if_neg hk]
      rw [childrenWF_cons]
      simp [h1, h2, childrenWF_setKey rest k c h3 hok hn]

theorem getD_eq_of_get?_eq {α : Type} (l1 l2 : List α) (k : Nat) (d : α)
    (h : l1.get? k = l2.get? k) : l1.getD k d = l2.getD k d := by
  rw [List.getD_eq_getElem?_getD, List.getD_eq_getElem?_getD,
    ← List.get?_eq_getElem?, ← List.get?_eq_getElem?, h]

theorem getLast?_take_pos {α : Type} (l : List α) (k : Nat) (hk1 : 1 ≤ k)
    (hk2 : k ≤ l.length) : (l.take k).getLast? = l.get? (k - 1) := by
  rw [List.getLast?_eq_getElem?, List.length_take]
  have hmin : k ⊓ l.length = k := min_eq_left hk2
  rw [hmin, List.getElem?_take_of_lt (by omega), List.get?_eq_getElem?]

theorem getLast?_drop_lt {α : Type} (l : List α) (k : Nat) (h : k < l.length) :
    (l.drop k).getLast? = l.getLast? := by
  rw [List.getLast?_eq_getElem?, List.getLast?_eq_getElem?, List.length_drop,
    List.getElem?_drop]
  congr 1
  omega

theorem lastTokTerm_congr (a b : List Char)
    (h : (tokens a).getLast? = (tokens b).getLast?) :
    lastTokTerm a = lastTokTerm b := by
  unfold lastTokTerm
  rw [h]

theorem lastTokTerm_of_some (s t : List Char)
    (h : (tokens s).getLast? = some t) :
    lastTokTerm s = (t.head? == some TERMINATOR) := by
  unfold lastTokTerm
  rw [h]

theorem validToks_head_mid (t x : List Char) (xs : List (List Char))
    (h : validToks (t :: x :: xs) = true) : midTokOK t = true := by
  rw [validToks_cons2] at h
  exact Bool.and_elim_left h

/-- The insertion walk preserves structural well-formedness, keeps the
node's first edge token and its non-emptiness, keeps the edge a valid token
sequence, and does not create an identityless node whose edge ends in a
terminator token.  The last hypothesis records that the already-matched
prefix of the edge consists of mid-shape tokens (they matched non-final
tokens of the inserted suffix). -/
theorem insertWalk_spec :
    ∀ (toks : List (List Char)) (node : Node) (index : Nat) (strId : Nat × Nat),
    nodeWF node = true →
    validToks (tokens node.str) = true →
    (lastTokTerm node.str = true → node.identity.isSome = true) →
    validToks toks = true →
    index ≤ ulen node.str →
    (toks ≠ [] → ∀ j, j < index → midTokOK (getTok node.str j) = true) →
    nodeWF (insertWalk node index toks strId) = true ∧
      getTok (insertWalk node index toks strId).str 0 = getTok node.str 0 ∧
      (node.str ≠ [] → (insertWalk node index toks strId).str ≠ []) ∧
      validToks (tokens (insertWalk node index toks strId).str) = true ∧
      (lastTokTerm (insertWalk node index toks strId).str = true →
        (insertWalk node index toks strId).identity.isSome = true) ∧
      (index = ulen node.str → (insertWalk node index toks strId).str = node.str)
  | [], node, index, strId => by
    intro h1 h2 h3 _ _ _
    exact ⟨h1, rfl, fun h => h, h2, h3, fun _ => rfl⟩
  | tok :: rest, node, index, strId => by
    intro hwf hvs hlt hvt hile hmid
    obtain ⟨s, id, cs⟩ := node
    simp only [Node.str, Node.identity] at hvs hlt hile hmid ⊢
    rw [nodeWF_mk] at hwf
    by_cases hidx : index = ulen s
    · rcases hf : cs.find? tok with _ | child
      · -- no matching child: attach `suffix[c:]` as a fresh leaf
        have heq : insertWalk (Node.mk s id cs) index (tok :: rest) strId =
            Node.mk s id (cs.setKey (getTok (tok :: rest).flatten 0)
              (Node.mk (tok :: rest).flatten (some strId) Children.nil)) := by
          conv_lhs => unfold insertWalk
          dsimp only
          rw [if_pos hidx, hf]
        rw [heq]
        have hrefold : tokens ((tok :: rest).flatten) = tok :: rest :=
          validToks_flatten _ hvt
        have hok : childOK (getTok (tok :: rest).flatten 0)
            (Node.mk (tok :: rest).flatten (some strId) Children.nil) = true := by
          rw [childOK_iff]
          refine ⟨rfl, valid_flatten_ne tok rest hvt, ?_, fun _ => rfl⟩
          simp only [Node.str]
          rw [hrefold]
          exact hvt
        refine ⟨?_, rfl, fun h => h, hvs, hlt, fun _ => rfl⟩
        rw [nodeWF_mk]
        exact childrenWF_setKey cs _ _ hwf hok rfl
      · -- descend into the matching child
        obtain ⟨hcOK, hcWF⟩ := childrenWF_find cs tok child hwf hf
        obtain ⟨hkey, hcne, hcval, hclast⟩ := (childOK_iff tok child).mp hcOK
        have heq : insertWalk (Node.mk s id cs) index (tok :: rest) strId =
            Node.mk s id (cs.setKey tok (insertWalk child 1 rest strId)) := by
          conv_lhs => unfold insertWalk
          dsimp only
          rw [if_pos hidx, hf]
          dsimp only
          rw [if_pos hkey]
        rw [heq]
        have hmid1 : rest ≠ [] → ∀ j, j < 1 → midTokOK (getTok child.str j) = true := by
          intro hr j hj
          have hj0 : j = 0 := by omega
          subst hj0
          rw [← hkey]
          rcases rest with _ | ⟨x, xs⟩
          · exact absurd rfl hr
          · exact validToks_head_mid tok x xs hvt
        obtain ⟨ih1, ih2, ih3, ih4, ih5, _⟩ :=
          insertWalk_spec rest child 1 strId hcWF hcval hclast
            (validToks_tail tok rest hvt) (ulen_pos child.str hcne) hmid1
        have hok : childOK tok (insertWalk child 1 rest strId) = true := by
          rw [childOK_iff]
          exact ⟨by rw [ih2, ← hkey], ih3 hcne, ih4, ih5⟩
        refine ⟨?_, rfl, fun h => h, hvs, hlt, fun _ => rfl⟩
        rw [nodeWF_mk]
        exact childrenWF_setKey cs _ _ hwf hok ih1
    · by_cases hmt : tok = getTok s index
      · -- token matches inside the edge: advance the index
        have heq : insertWalk (Node.mk s id cs) index (tok :: rest) strId =
            insertWalk (Node.mk s id cs) (index + 1) rest strId := by
          conv_lhs => unfold insertWalk
          dsimp only
          rw [if_neg hidx, if_pos hmt]
        have hmid2 : rest ≠ [] → ∀ j, j < index + 1 →
            midTokOK (getTok (Node.mk s id cs).str j) = true := by
          intro hr j hj
          rcases Nat.lt_or_ge j index with hji | hji
          · exact hmid (by simp) j hji
          · have hj0 : j = index := by omega
            subst hj0
            simp only [Node.str]
            rw [← hmt]
            rcases rest with _ | ⟨x, xs⟩
            · exact absurd rfl hr
            · exact validToks_head_mid tok x xs hvt
        have hile2 : index + 1 ≤ ulen (Node.mk s id cs).str := by
          simp only [Node.str]
          omega
        obtain ⟨ih1, ih2, ih3, ih4, ih5, _⟩ :=
          insertWalk_spec rest (Node.mk s id cs) (index + 1) strId
            (by rw [nodeWF_mk]; exact hwf) hvs hlt
            (validToks_tail tok rest hvt) hile2 hmid2
        rw [heq]
        simp only [Node.str] at ih2 ih3
        exact ⟨ih1, ih2, ih3, ih4, ih5, fun h => absurd h hidx⟩
      · -- mismatch inside the edge: split
        have heq : insertWalk (Node.mk s id cs) index (tok :: rest) strId =
            splitNode (Node.mk s id cs) index (tok :: rest).flatten strId := by
          conv_lhs => unfold insertWalk
          dsimp only
          rw [if_neg hidx, if_neg hmt]
        rw [heq]
        have hrefold : tokens ((tok :: rest).flatten) = tok :: rest :=
          validToks_flatten _ hvt
        have hokNew : childOK (getTok (tok :: rest).flatten 0)
            (Node.mk (tok :: rest).flatten (some strId) Children.nil) = true := by
          rw [childOK_iff]
          refine ⟨rfl, valid_flatten_ne tok rest hvt, ?_, fun _ => rfl⟩
          simp only [Node.str]
          rw [hrefold]
          exact hvt
        by_cases hi0 : index = 0
        · -- split point 0: attach (Python's split_point <= 0 branch)
          subst hi0
          have heq2 : splitNode (Node.mk s id cs) 0 (tok :: rest).flatten strId =
              Node.mk s id (cs.setKey (getTok (tok :: rest).flatten 0)
                (Node.mk (tok :: rest).flatten (some strId) Children.nil)) := by
            conv_lhs => unfold splitNode
            dsimp only
            rw [if_pos rfl]
          rw [heq2]
          refine ⟨?_, rfl, fun h => h, hvs, hlt, fun h => absurd h hidx⟩
          rw [nodeWF_mk]
          exact childrenWF_setKey cs _ _ hwf hokNew rfl
        · -- proper split at 1 ≤ index < ulen s
          have hlt_idx : index < ulen s := by omega
          have hTlen : index < (tokens s).length := by
            rw [← ulen_eq_tokens]; exact hlt_idx
          have hlen : index < (truePositions s).length := by
            rw [truePositions_length]; omega
          have hget := List.get?_eq_get hlen
          set p := (truePositions s).get ⟨index, hlen⟩ with hpdef
          have hgetD : (truePositions s).getD index s.length = p :=
            getD_of_get? _ _ _ _ hget
          obtain ⟨hple, hdrop, htake⟩ := tp_get_spec s index p hget
          have heq2 : splitNode (Node.mk s id cs) index (tok :: rest).flatten strId =
              Node.mk (s.take p) none
                (Children.cons (getTok (s.drop p) 0) (Node.mk (s.drop p) id cs)
                  (Children.cons (getTok (tok :: rest).flatten 0)
                    (Node.mk (tok :: rest).flatten (some strId) Children.nil)
                    Children.nil)) := by
            conv_lhs => unfold splitNode
            dsimp only
            rw [if_neg hi0]
            simp only [hgetD]
          rw [heq2]
          have hvalidS : validToks (tokens s) = true := hvs
          -- facts about the front part
          have htakene : tokens (s.take p) ≠ [] := by
            rw [htake]
            intro hc
            rcases List.take_eq_nil_iff.mp hc with hc | hc
            · omega
            · rw [hc] at hTlen; simp at hTlen
          have hfrontne : s.take p ≠ [] := by
            intro hc
            rw [hc] at htakene
            exact htakene tokens_nil
          have hfront0 : getTok (s.take p) 0 = getTok s 0 := by
            unfold getTok
            refine getD_eq_of_get?_eq _ _ 0 [] ?_
            rw [htake, List.get?_eq_getElem?, List.get?_eq_getElem?,
              List.getElem?_take_of_lt (by omega)]
          have hfrontvalid : validToks (tokens (s.take p)) = true := by
            rw [htake]
            exact validToks_take _ index hvalidS
          have hfrontlast : lastTokTerm (s.take p) = false := by
            have hl : (tokens (s.take p)).getLast? = (tokens s).get? (index - 1) := by
              rw [htake]
              exact getLast?_take_pos _ index (by omega) (by omega)
            have hlt2 : index - 1 < (tokens s).length := by omega
            have hsome := List.get?_eq_get hlt2
            set tk := (tokens s).get ⟨index - 1, hlt2⟩ with htk
            have hmidtk : midTokOK tk = true := by
              have := hmid (by simp) (index - 1) (by omega)
              unfold getTok at this
              rwa [getD_of_get? _ _ _ _ hsome] at this
            have hh := midTok_head tk hmidtk
            rw [lastTokTerm_of_some _ tk (by rw [hl, hsome])]
            exact beq_eq_false_iff_ne.mpr hh
          -- facts about the old continuation
          have hdropne : tokens (s.drop p) ≠ [] := by
            rw [hdrop]
            intro hc
            have := List.drop_eq_nil_iff.mp hc
            omega
          have holdne : s.drop p ≠ [] := by
            intro hc
            rw [hc] at hdropne
            exact hdropne tokens_nil
          have holdlast : lastTokTerm (s.drop p) = lastTokTerm s := by
            refine lastTokTerm_congr _ _ ?_
            rw [hdrop]
            exact getLast?_drop_lt _ index hTlen
          have hokOld : childOK (getTok (s.drop p) 0) (Node.mk (s.drop p) id cs) = true := by
            rw [childOK_iff]
            refine ⟨rfl, holdne, ?_, ?_⟩
            · simp only [Node.str]
              rw [hdrop]
              exact validToks_drop _ index hvalidS
            · simp only [Node.str, Node.identity]
              intro hTT
              rw [holdlast] at hTT
              exact hlt hTT
          refine ⟨?_, ?_, fun _ => hfrontne, hfrontvalid, ?_, fun h => absurd h hidx⟩
          · rw [nodeWF_mk, childrenWF_cons, childrenWF_cons]
            simp only [Bool.and_eq_true]
            exact ⟨⟨hokOld, hwf⟩, ⟨⟨hokNew, rfl⟩, rfl⟩⟩
          · simp only [Node.str]
            exact hfront0
          · simp only [Node.str, Node.identity]
            intro hTT
            rw [hfrontlast] at hTT
            cases hTT

theorem ulen_nil : ulen ([] : List Char) = 0 := rfl

theorem lastTokTerm_nil : lastTokTerm ([] : List Char) = false := rfl

/-- `insert` (via the fuelled suffix recursion) preserves well-formedness
and keeps the root's edge string empty. -/
theorem insertAll_wf : ∀ (fuel minLen : Nat) (root : Node) (s : List Char)
    (strId : Nat × Nat) (res : Node),
    nodeWF root = true → root.str = [] →
    insertAll fuel minLen root s strId = some res →
    nodeWF res = true ∧ res.str = []
  | 0, _, _, _, _, _ => by intro _ _ h; cases h
  | fuel + 1, minLen, root, s, strId, res => by
    intro hwf hstr h
    unfold insertAll at h
    by_cases hlen : ulen s < minLen
    · rw [if_pos hlen] at h
      injection h with h
      subst h
      exact ⟨hwf, hstr⟩
    · rw [if_neg hlen] at h
      have hspec := insertWalk_spec (tokens (s ++ termStr strId.1)) root 0 strId
        hwf (by rw [hstr]; rfl) (by rw [hstr, lastTokTerm_nil]; intro hc; cases hc)
        (validToks_tokens _) (by omega) (by intro _ j hj; omega)
      obtain ⟨hwf', _, _, _, _, hsame⟩ := hspec
      have hstr' : (insertWalk root 0 (tokens (s ++ termStr strId.1)) strId).str = [] := by
        rw [hsame (by rw [hstr, ulen_nil]), hstr]
      rcases hsl : sliceFrom s 1 with _ | s'
      · rw [hsl] at h; cases h
      · rw [hsl] at h
        exact insertAll_wf fuel minLen _ s' (strId.1, strId.2 + 1) res hwf' hstr' h

theorem insert_wf (minLen : Nat) (root : Node) (s : List Char)
    (strId : Nat × Nat) (res : Node) (hwf : nodeWF root = true)
    (hstr : root.str = []) (h : insert minLen root s strId = some res) :
    nodeWF res = true ∧ res.str = [] :=
  insertAll_wf (s.length + 1) minLen root s strId res hwf hstr h

/-- The tree built over any fragment list is well-formed. -/
theorem buildTree_aux_wf (frags : List (List Char)) :
    ∀ (l : List Nat) (acc : Node) (res : Node),
    nodeWF acc = true → acc.str = [] →
    l.foldlM (fun t i => insert MIN_OVERLAP t (frags.getD i []) (i, 0)) acc = some res →
    nodeWF res = true ∧ res.str = [] := by
  intro l
  induction l with
  | nil =>
    intro acc res hwf hstr h
    injection h with h
    subst h
    exact ⟨hwf, hstr⟩
  | cons i rest ih =>
    intro acc res hwf hstr h
    rw [List.foldlM_cons] at h
    rcases hm : insert MIN_OVERLAP acc (frags.getD i []) (i, 0) with _ | mid
    · rw [hm] at h; cases h
    · rw [hm] at h
      obtain ⟨hwf', hstr'⟩ := insert_wf _ _ _ _ _ hwf hstr hm
      exact ih mid res hwf' hstr' h

theorem buildTree_wf (frags : List (List Char)) (t : Node)
    (h : buildTree frags = some t) : nodeWF t = true :=
  (buildTree_aux_wf frags (List.range frags.length) emptyRoot t rfl rfl h).1

/-- In a well-formed tree every terminator-keyed child carries an identity:
the key is the first token of the child's edge, terminator-starting tokens
occur only in final position of a valid token sequence, so the edge is that
single token and the `lastTokTerm` clause of `childOK` applies. -/
theorem childOK_term_key (k : List Char) (c : Node) (hok : childOK k c = true)
    (hterm : (k.head? == some TERMINATOR) = true) : c.identity.isSome = true := by
  obtain ⟨hk, hne, hval, hlast⟩ := (childOK_iff k c).mp hok
  obtain ⟨t0, ts, hts⟩ : ∃ t0 ts, tokens c.str = t0 :: ts := by
    rcases htv : tokens c.str with _ | ⟨t0, ts⟩
    · exact absurd htv (tokens_ne c.str hne)
    · exact ⟨t0, ts, rfl⟩
  have hk0 : k = t0 := by
    rw [hk]
    unfold getTok
    rw [hts]
    rfl
  subst hk0
  cases ts with
  | nil =>
    apply hlast
    rw [lastTokTerm_of_some c.str k (by rw [hts]; rfl)]
    exact hterm
  | cons x xs =>
    have hval' : validToks (k :: x :: xs) = true := by rw [← hts]; exact hval
    have hmid := validToks_head_mid k x xs hval'
    have := midTok_head k hmid
    rw [beq_iff_eq] at hterm
    exact absurd hterm this

mutual
theorem nodeWF_termIds : ∀ (n : Node), nodeWF n = true → nodeTermIds n = true
  | .mk s id cs => by
    intro h
    rw [nodeWF_mk] at h
    show childrenTermIds cs = true
    exact childrenWF_termIds cs h

theorem childrenWF_termIds : ∀ (cs : Children),
    childrenWF cs = true → childrenTermIds cs = true
  | .nil => by intro _; rfl
  | .cons k c rest => by
    intro h
    rw [childrenWF_cons] at h
    simp only [Bool.and_eq_true] at h
    obtain ⟨⟨hok, hn⟩, hrest⟩ := h
    show ((!(k.head? == some TERMINATOR) || c.identity.isSome) &&
      nodeTermIds c && childrenTermIds rest) = true
    simp only [Bool.and_eq_true]
    refine ⟨⟨?_, nodeWF_termIds c hn⟩, childrenWF_termIds rest hrest⟩
    rcases hterm : (k.head? == some TERMINATOR) with _ | _
    · simp
    · simp only [Bool.not_true, Bool.false_or]
      exact childOK_term_key k c hok hterm
end

/-- When every terminator-keyed child carries an identity, the push loop of
the DFS cannot hit a `None` identity. -/
theorem termPushes_ok : ∀ (cs : Children) (s : List Char),
    childrenTermIds cs = true → ∃ l, termPushes cs s = .ok l
  | .nil, s => by intro _; exact ⟨[], rfl⟩
  | .cons k c rest, s => by
    intro h
    have h' : ((!(k.head? == some TERMINATOR) || c.identity.isSome) &&
        nodeTermIds c && childrenTermIds rest) = true := h
    simp only [Bool.and_eq_true] at h'
    obtain ⟨⟨hk, _⟩, hrest⟩ := h'
    obtain ⟨l, hl⟩ := termPushes_ok rest s hrest
    unfold termPushes
    rcases hterm : (k.head? == some TERMINATOR) with _ | _
    · rw [if_neg (by simp [hterm])]
      exact ⟨l, hl⟩
    · rw [if_pos (by simp [hterm])]
      rw [hterm] at hk
      simp only [Bool.not_true, Bool.false_or] at hk
      rcases hid : c.identity with _ | ⟨g, off⟩
      · rw [hid] at hk; cases hk
      · dsimp only
        rw [hl]
        by_cases hoff : off ≠ 0
        · refine ⟨(g, s) :: l, ?_⟩
          show (if off ≠ 0 then (pure ((g, s) :: l) : Except DfsErr (List Cand))
            else pure l) = Except.ok ((g, s) :: l)
          rw [if_pos hoff]
          rfl
        · refine ⟨l, ?_⟩
          show (if off ≠ 0 then (pure ((g, s) :: l) : Except DfsErr (List Cand))
            else pure l) = Except.ok l
          rw [if_neg hoff]
          rfl

mutual
theorem dfsNode_no_noneId : ∀ (n : Node) (s : List Char) (stack : List Cand)
    (ja : JoinArray), nodeTermIds n = true →
    dfsNode n s stack ja ≠ .error .noneIdentity
  | .mk es id cs, s, stack, ja => by
    intro hids
    have hcs : childrenTermIds cs = true := hids
    unfold dfsNode
    match id with
    | some (f, 0) =>
      dsimp only
      by_cases hb : f < ja.length
      · rw [if_pos hb]; intro hc; cases hc
      · rw [if_neg hb]; intro hc; cases hc
    | some (f, off + 1) =>
      dsimp only
      by_cases hcond : (cs.hasTermKey && decide (MIN_OVERLAP ≤ ulen s)) = true
      · rw [if_pos hcond]
        obtain ⟨l, hl⟩ := termPushes_ok cs s hcs
        rw [hl]
        show dfsChildren cs s (stack ++ l) ja ≠ .error .noneIdentity
        exact dfsChildren_no_noneId cs s (stack ++ l) ja hcs
      · rw [if_neg hcond]
        show dfsChildren cs s (stack ++ []) ja ≠ .error .noneIdentity
        exact dfsChildren_no_noneId cs s (stack ++ []) ja hcs
    | none =>
      dsimp only
      by_cases hcond : (cs.hasTermKey && decide (MIN_OVERLAP ≤ ulen s)) = true
      · rw [if_pos hcond]
        obtain ⟨l, hl⟩ := termPushes_ok cs s hcs
        rw [hl]
        show dfsChildren cs s (stack ++ l) ja ≠ .error .noneIdentity
        exact dfsChildren_no_noneId cs s (stack ++ l) ja hcs
      · rw [if_neg hcond]
        show dfsChildren cs s (stack ++ []) ja ≠ .error .noneIdentity
        exact dfsChildren_no_noneId cs s (stack ++ []) ja hcs

theorem dfsChildren_no_noneId : ∀ (cs : Children) (s : List Char)
    (stack : List Cand) (ja : JoinArray), childrenTermIds cs = true →
    dfsChildren cs s stack ja ≠ .error .noneIdentity
  | .nil, s, stack, ja => by intro _ hc; cases hc
  | .cons k c rest, s, stack, ja => by
    intro hids
    have h' : ((!(k.head? == some TERMINATOR) || c.identity.isSome) &&
        nodeTermIds c && childrenTermIds rest) = true := hids
    simp only [Bool.and_eq_true] at h'
    obtain ⟨⟨_, hc⟩, hrest⟩ := h'
    unfold dfsChildren
    rcases hja : dfsNode c (s ++ c.str) stack ja with e | ja'
    · rcases e with _ | _
      · exact absurd hja (dfsNode_no_noneId c (s ++ c.str) stack ja hc)
      · intro hcon
        cases Except.error.inj hcon
    · show dfsChildren rest s stack ja' ≠ .error .noneIdentity
      exact dfsChildren_no_noneId rest s stack ja' hrest
end

/-! ## Claim theorems (C4, C5, C8, C9, C10) -/

/-- C4, counterexample: the claim says a `%` not followed by two characters,
or followed by non-hex characters, is detected during construction and the
caller is informed immediately, never silently tokenized.  In the code
`update_true_positions` performs no check at all: `"AB%"` (trailing `%`)
is happily given the positions `[0,1,2,3]` (tokens `A`,`B`,`%`) and
`"A%ZZ"` (non-hex escape) the positions `[0,1,4]` (tokens `A`,`%ZZ`) —
both inputs are silently tokenized and no error path exists. -/
theorem C4_counterexample :
    truePositions "AB%".data = [0, 1, 2, 3] ∧
      truePositions "A%ZZ".data = [0, 1, 4] ∧
      tokens "A%ZZ".data = [['A'], ['%', 'Z', 'Z']] := by
  refine ⟨by decide, by decide, by decide⟩

/-- C4, amended: `URLString` construction never validates or rejects input:
every string is totally tokenized (the tokens concatenate back to the full
input, so nothing is dropped and no error is raised), with a `%` consuming
itself and the next two characters whatever they are, and a short final
`%`-token at the end of the string. -/
theorem C4_construction_never_rejects :
    (∀ s : List Char, (tokens s).flatten = s) ∧
      tokens "A%ZZ".data = [['A'], ['%', 'Z', 'Z']] ∧
      tokens "AB%".data = [['A'], ['B'], ['%']] :=
  ⟨tokens_flatten, by decide, by decide⟩

/-- C5: for every raw text `s`, `t` and token count `k ≤ len(t)`,
`s.join(t, k)` succeeds and produces the concatenation of `s`'s raw text
with `t`'s raw text starting at `t`'s `k`-th true position (the token
boundary), and the dropped prefix is exactly `t`'s first `k` whole tokens —
the cut never splits a token, in particular never a `%XX` escape, so
decoding after a join never sees a truncated escape.  (Boundary
recomputation is implicit: positions are always derived from the raw
text.) -/
theorem C5_join_whole_token_boundary (s t : List Char) (k : Nat)
    (h : k ≤ ulen t) :
    ∃ p, (truePositions t).get? k = some p ∧
      join s t k = some (s ++ t.drop p) ∧
      t.drop p = ((tokens t).drop k).flatten := by
  have hlt : k < (truePositions t).length := by
    rw [truePositions_length]
    rw [ulen_eq_tokens] at h
    omega
  have hget := List.get?_eq_get hlt
  set p := (truePositions t).get ⟨k, hlt⟩ with hp
  obtain ⟨hple, hdp, _⟩ := tp_get_spec t k p hget
  have hflat : t.drop p = ((tokens t).drop k).flatten := by
    rw [← tokens_flatten (t.drop p), hdp]
  refine ⟨p, hget, ?_, hflat⟩
  rw [join_spec s t k h, hflat]

/-- Witness for C5 at a concrete input: joining `"%41C"` onto `"AB"` with
one overlap token drops the whole `%41` triplet. -/
theorem C5_witness :
    ∃ p, (truePositions "%41C".data).get? 1 = some p ∧
      join "AB".data "%41C".data 1 = some ("AB".data ++ "%41C".data.drop p) ∧
      "%41C".data.drop p = ((tokens "%41C".data).drop 1).flatten :=
  C5_join_whole_token_boundary "AB".data "%41C".data 1 (by decide)

/-- C8: inserting a string whose token length is below the configured
minimum is a silent no-op — the tree is returned unchanged and no error is
raised (`some root`, never `none`). -/
theorem C8_short_insert_noop (minLen : Nat) (root : Node) (s : List Char)
    (strId : Nat × Nat) (h : ulen s < minLen) :
    insert minLen root s strId = some root := by
  unfold insert insertAll
  rw [if_pos h]

/-- Witness for C8: a 2-token string is not inserted under minimum 3. -/
theorem C8_witness :
    ulen "AB".data < 3 ∧ insert 3 emptyRoot "AB".data (0, 0) = some emptyRoot :=
  ⟨by decide, C8_short_insert_noop 3 emptyRoot "AB".data (0, 0) (by decide)⟩

/-- C9, counterexample: the claim says equality *and hashing* are defined
over the raw text.  Equality is (see `C9_eq_raw_text_no_hash`), but
`URLString` overrides `__eq__` without defining `__hash__`; by the Python
data model the class's `__hash__` is set to `None`, so instances are
unhashable — there is no hash implementation at all, consistent or
otherwise. -/
theorem C9_counterexample : urlHashImpl = none := rfl

/-- C9, amended: `URLString.__eq__` compares raw text (against both
`URLString`s and plain strings, which share the raw-text representation
here), not object identity; no `__hash__` is defined, so instances are
unhashable rather than hashed by raw text. -/
theorem C9_eq_raw_text_no_hash :
    (∀ a b : List Char, urlEq a b = true ↔ a = b) ∧ urlHashImpl = none :=
  ⟨fun a b => by simp [urlEq], rfl⟩

/-- C10: in the tree built by any sequence of insertions, every child node
whose key (the first token of its edge label) begins with the terminator
carries a non-`None` identity, and consequently the DFS traversal can never
fail on reading `identity[1]` of a terminator child (the `noneIdentity`
error is unreachable; the tree is also structurally well-formed, so keys
coincide with first edge-label tokens). -/
theorem C10_term_children_have_identity (frags : List (List Char)) (t : Node)
    (h : buildTree frags = some t) :
    nodeWF t = true ∧ nodeTermIds t = true ∧
      ∀ (s : List Char) (stack : List Cand) (ja : JoinArray),
        dfsNode t s stack ja ≠ .error .noneIdentity := by
  have hwf := buildTree_wf frags t h
  have hids := nodeWF_termIds t hwf
  exact ⟨hwf, hids, fun s stack ja => dfsNode_no_noneId t s stack ja hids⟩

/-- Witness for C10 on the tree of the single fragment `"ABCD"`. -/
theorem C10_witness :
    nodeTermIds (Node.mk [] none
      (Children.cons ['A'] (Node.mk "ABCD$0".data (some (0, 0)) Children.nil)
        (Children.cons ['B'] (Node.mk "BCD$0".data (some (0, 1)) Children.nil)
          Children.nil))) = true ∧
      dfsNode (Node.mk [] none
        (Children.cons ['A'] (Node.mk "ABCD$0".data (some (0, 0)) Children.nil)
          (Children.cons ['B'] (Node.mk "BCD$0".data (some (0, 1)) Children.nil)
            Children.nil))) [] [] [none] ≠ .error .noneIdentity := by
  have h := C10_term_children_have_identity ["ABCD".data]
    (Node.mk [] none
      (Children.cons ['A'] (Node.mk "ABCD$0".data (some (0, 0)) Children.nil)
        (Children.cons ['B'] (Node.mk "BCD$0".data (some (0, 1)) Children.nil)
          Children.nil))) rfl
  exact ⟨h.2.1, h.2.2 [] [] [none]⟩

/-! ## C6: ordering of the candidate lists -/

theorem chain'_le_const (l : List Nat) (v : Nat) (h : ∀ x ∈ l, x = v) :
    List.Chain' (· ≤ ·) l := by
  induction l with
  | nil => exact List.chain'_nil
  | cons x rest ih =>
    cases rest with
    | nil => simp
    | cons y rs =>
      rw [List.chain'_cons]
      refine ⟨?_, ih ?_⟩
      · rw [h x (by simp), h y (by simp)]
      · intro z hz
        exact h z (by simp [hz])

/-- Every entry the push loop produces carries the current path text. -/
theorem termPushes_snd : ∀ (cs : Children) (s : List Char) (l : List Cand),
    termPushes cs s = .ok l → ∀ m, m ∈ l → m.2 = s
  | .nil, s, l => by
    intro h m hm
    injection h with h
    subst h
    cases hm
  | .cons k c rest, s, l => by
    intro h m hm
    unfold termPushes at h
    by_cases hterm : (k.head? == some TERMINATOR) = true
    · rw [if_pos hterm] at h
      rcases hid : c.identity with _ | ⟨g, off⟩
      · rw [hid] at h; cases h
      · rw [hid] at h
        rcases hl : termPushes rest s with e | l'
        · rw [hl] at h
          have h' : (Except.error e : Except DfsErr (List Cand)) = .ok l := h
          cases h'
        · rw [hl] at h
          by_cases hoff : off ≠ 0
          · have h' : (pure ((g, s) :: l') : Except DfsErr (List Cand)) = .ok l := by
              rw [← h]
              show _ = (if off ≠ 0 then (pure ((g, s) :: l') : Except DfsErr (List Cand))
                else pure l')
              rw [if_pos hoff]
            injection h' with h'
            subst h'
            rcases hm with _ | hm
            · rfl
            · exact termPushes_snd rest s l' hl m (by assumption)
          · have h' : (pure l' : Except DfsErr (List Cand)) = .ok l := by
              rw [← h]
              show _ = (if off ≠ 0 then (pure ((g, s) :: l') : Except DfsErr (List Cand))
                else pure l')
              rw [if_neg hoff]
            injection h' with h'
            subst h'
            exact termPushes_snd rest s l' hl m hm
    · rw [if_neg hterm] at h
      exact termPushes_snd rest s l h m hm

mutual
/-- Along the DFS, the match stack holds entries no longer than the current
path and in non-decreasing order of token length; hence every list the DFS
records (a stack snapshot) is ordered from smallest to largest overlap. -/
theorem dfsNode_sorted : ∀ (n : Node) (s : List Char) (stack : List Cand)
    (ja ja' : JoinArray), dfsNode n s stack ja = .ok ja' →
    (∀ m ∈ stack, ulen m.2 ≤ ulen s) →
    List.Chain' (· ≤ ·) (stack.map fun m => ulen m.2) →
    ∀ f l, ja'.get? f = some (some l) →
      ja.get? f = some (some l) ∨
        List.Chain' (· ≤ ·) (l.map fun m => ulen m.2)
  | .mk es id cs, s, stack, ja, ja' => by
    intro h hbound hchain f l hf
    unfold dfsNode at h
    match id, h with
    | some (f0, 0), h =>
      dsimp only at h
      by_cases hb : f0 < ja.length
      · rw [if_pos hb] at h
        injection h with h
        subst h
        by_cases hff : f0 = f
        · subst hff
          rw [List.get?_eq_getElem?, List.getElem?_set_self hb] at hf
          injection hf with hf
          injection hf with hf
          subst hf
          exact Or.inr hchain
        · rw [List.get?_set_ne _ _ hff] at hf
          exact Or.inl hf
      · rw [if_neg hb] at h
        cases h
    | some (f0, off + 1), h =>
      dsimp only at h
      rcases hcond : (cs.hasTermKey && decide (MIN_OVERLAP ≤ ulen s)) with _ | _
      · rw [if_neg (by rw [hcond]; exact Bool.false_ne_true)] at h
        have h' : dfsChildren cs s (stack ++ []) ja = .ok ja' := h
        rcases dfsChildren_sorted cs s (stack ++ []) ja ja' h'
          (by simpa using hbound) (by simpa using hchain) f l hf with hc | hc
        · exact Or.inl hc
        · exact Or.inr hc
      · rw [if_pos hcond] at h
        rcases hpp : termPushes cs s with e | pushes
        · rw [hpp] at h
          have h' : (Except.error e : Except DfsErr JoinArray) = .ok ja' := h
          cases h'
        · rw [hpp] at h
          have h' : dfsChildren cs s (stack ++ pushes) ja = .ok ja' := h
          have hps := termPushes_snd cs s pushes hpp
          have hbound' : ∀ m ∈ stack ++ pushes, ulen m.2 ≤ ulen s := by
            intro m hm
            rcases List.mem_append.mp hm with hm | hm
            · exact hbound m hm
            · rw [hps m hm]
          have hchain' : List.Chain' (· ≤ ·)
              ((stack ++ pushes).map fun m => ulen m.2) := by
            rw [List.map_append, List.chain'_append]
            refine ⟨hchain, ?_, ?_⟩
            · refine chain'_le_const _ (ulen s) ?_
              intro x hx
              rcases List.mem_map.mp hx with ⟨m, hm, hmx⟩
              rw [← hmx, hps m hm]
            · intro x hx y hy
              rcases List.mem_map.mp (List.mem_of_mem_head? hy) with ⟨m, hm, hmy⟩
              rw [← hmy, hps m hm]
              rcases List.mem_map.mp (List.mem_of_mem_getLast? hx) with ⟨m2, hm2, hmx⟩
              rw [← hmx]
              exact hbound m2 hm2
          rcases dfsChildren_sorted cs s (stack ++ pushes) ja ja' h'
            hbound' hchain' f l hf with hc | hc
          · exact Or.inl hc
          · exact Or.inr hc
    | none, h =>
      dsimp only at h
      rcases hcond : (cs.hasTermKey && decide (MIN_OVERLAP ≤ ulen s)) with _ | _
      · rw [if_neg (by rw [hcond]; exact Bool.false_ne_true)] at h
        have h' : dfsChildren cs s (stack ++ []) ja = .ok ja' := h
        rcases dfsChildren_sorted cs s (stack ++ []) ja ja' h'
          (by simpa using hbound) (by simpa using hchain) f l hf with hc | hc
        · exact Or.inl hc
        · exact Or.inr hc
      · rw [if_pos hcond] at h
        rcases hpp : termPushes cs s with e | pushes
        · rw [hpp] at h
          have h' : (Except.error e : Except DfsErr JoinArray) = .ok ja' := h
          cases h'
        · rw [hpp] at h
          have h' : dfsChildren cs s (stack ++ pushes) ja = .ok ja' := h
          have hps := termPushes_snd cs s pushes hpp
          have hbound' : ∀ m ∈ stack ++ pushes, ulen m.2 ≤ ulen s := by
            intro m hm
            rcases List.mem_append.mp hm with hm | hm
            · exact hbound m hm
            · rw [hps m hm]
          have hchain' : List.Chain' (· ≤ ·)
              ((stack ++ pushes).map fun m => ulen m.2) := by
            rw [List.map_append, List.chain'_append]
            refine ⟨hchain, ?_, ?_⟩
            · refine chain'_le_const _ (ulen s) ?_
              intro x hx
              rcases List.mem_map.mp hx with ⟨m, hm, hmx⟩
              rw [← hmx, hps m hm]
            · intro x hx y hy
              rcases List.mem_map.mp (List.mem_of_mem_head? hy) with ⟨m, hm, hmy⟩
              rw [← hmy, hps m hm]
              rcases List.mem_map.mp (List.mem_of_mem_getLast? hx) with ⟨m2, hm2, hmx⟩
              rw [← hmx]
              exact hbound m2 hm2
          rcases dfsChildren_sorted cs s (stack ++ pushes) ja ja' h'
            hbound' hchain' f l hf with hc | hc
          · exact Or.inl hc
          · exact Or.inr hc

theorem dfsChildren_sorted : ∀ (cs : Children) (s : List Char)
    (stack : List Cand) (ja ja' : JoinArray),
    dfsChildren cs s stack ja = .ok ja' →
    (∀ m ∈ stack, ulen m.2 ≤ ulen s) →
    List.Chain' (· ≤ ·) (stack.map fun m => ulen m.2) →
    ∀ f l, ja'.get? f = some (some l) →
      ja.get? f = some (some l) ∨
        List.Chain' (· ≤ ·) (l.map fun m => ulen m.2)
  | .nil, s, stack, ja, ja' => by
    intro h _ _ f l hf
    injection h with h
    subst h
    exact Or.inl hf
  | .cons k c rest, s, stack, ja, ja' => by
    intro h hbound hchain f l hf
    unfold dfsChildren at h
    rcases h1 : dfsNode c (s ++ c.str) stack ja with e | ja1
    · rw [h1] at h
      have h' : (Except.error e : Except DfsErr JoinArray) = .ok ja' := h
      cases h'
    · rw [h1] at h
      have h2 : dfsChildren rest s stack ja1 = .ok ja' := h
      have hbound1 : ∀ m ∈ stack, ulen m.2 ≤ ulen (s ++ c.str) := by
        intro m hm
        calc ulen m.2 ≤ ulen s := hbound m hm
          _ ≤ ulen (s ++ c.str) := by
            rw [ulen_eq_tokens, ulen_eq_tokens]
            exact tokens_append_le s c.str
      rcases dfsChildren_sorted rest s stack ja1 ja' h2 hbound hchain f l hf with hc | hc
      · rcases dfsNode_sorted c (s ++ c.str) stack ja ja1 h1 hbound1 hchain f l hc
          with hc2 | hc2
        · exact Or.inl hc2
        · exact Or.inr hc2
      · exact Or.inr hc
end

theorem mapM_id_mem {α : Type} : ∀ (lo : List (Option α)) (l : List α),
    lo.mapM id = some l → ∀ x ∈ l, some x ∈ lo
  | [], l => by
    intro h x hx
    injection h with h
    subst h
    cases hx
  | o :: rest, l => by
    intro h x hx
    rw [List.mapM_cons] at h
    rcases o with _ | a
    · cases h
    · rcases hr : rest.mapM id with _ | l'
      · rw [hr] at h
        cases h
      · rw [hr] at h
        have h' : some (a :: l') = some l := h
        injection h' with h'
        subst h'
        rcases hx with _ | hx
        · exact List.mem_cons_self _ _
        · exact List.mem_cons_of_mem _ (mapM_id_mem rest l' hr x (by assumption))

/-- C6: every candidate list produced by the index traversal holds its
entries in non-decreasing order of overlap token length — entries pushed at
shallower nodes come first, so reading the list back to front tries larger
overlaps before smaller ones. -/
theorem C6_candidate_lists_sorted (frags : List (List Char))
    (ja : List (List Cand)) (h : candidateLists frags = some ja) :
    ∀ l ∈ ja, List.Chain' (· ≤ ·) (l.map fun m => ulen m.2) := by
  intro l hl
  unfold candidateLists at h
  rcases ht : buildTree frags with _ | t
  · rw [ht] at h; cases h
  · rw [ht] at h
    have h2 : (do
        let ja0 ← (dfsNode t [] [] (List.replicate frags.length none)).toOption
        ja0.mapM id : Option (List (List Cand))) = some ja := h
    rcases hd : (dfsNode t [] [] (List.replicate frags.length none)).toOption
      with _ | ja0
    · rw [hd] at h2
      have h3 : (none : Option (List (List Cand))) = some ja := h2
      cases h3
    · rw [hd] at h2
      have h' : ja0.mapM id = some ja := h2
      have hok : dfsNode t [] [] (List.replicate frags.length none) = .ok ja0 := by
        rcases hrun : dfsNode t [] [] (List.replicate frags.length none) with e | v
        · rw [hrun] at hd; cases hd
        · rw [hrun] at hd
          injection hd with hd
          subst hd
          rfl
      have hmem := mapM_id_mem ja0 ja h' l hl
      obtain ⟨f, hfget⟩ := List.mem_iff_get?.mp hmem
      rcases dfsNode_sorted t [] [] _ ja0 hok (by intro m hm; cases hm)
        List.chain'_nil f l hfget with hc | hc
      · rw [List.get?_eq_getElem?, List.getElem?_replicate] at hc
        by_cases hfn : f < frags.length
        · rw [if_pos hfn] at hc
          injection hc with hc
          cases hc
        · rw [if_neg hfn] at hc
          cases hc
      · exact hc

/-- Witness for C6: with fragments sharing the 3-token suffix/prefix `ABC`,
the recorded candidate list is sorted by overlap length. -/
theorem C6_witness :
    List.Chain' (· ≤ ·)
      ([((0 : Nat), "ABC".data), ((1 : Nat), "ABC".data)].map fun m => ulen m.2) := by
  have h := C6_candidate_lists_sorted
    ["XABC".data, "YABC".data, "ABCZW".data]
    [[], [], [((0 : Nat), "ABC".data), ((1 : Nat), "ABC".data)]] (by decide)
  exact h _ (by decide)

/-! ## Properties of the assembler -/

theorem join_some_shape (s t : List Char) (k : Nat) (u : List Char)
    (h : join s t k = some u) : ∃ tail, u = s ++ tail := by
  unfold join at h
  rcases hs : sliceFrom t k with _ | tail
  · rw [hs] at h; cases h
  · rw [hs] at h
    injection h with h
    exact ⟨tail, h.symm⟩

theorem getD_mem_of_lt {α : Type} (l : List α) (i : Nat) (d : α)
    (h : i < l.length) : l.getD i d ∈ l := by
  rw [List.getD_eq_getElem?_getD, List.getElem?_eq_getElem h]
  exact List.getElem_mem h

/-- The merge loop only ever grows a non-empty merged string (every join
keeps its base as a prefix, and bases are non-empty fragments or the
previously merged string). -/
theorem traceLoop_merged_ne : ∀ (fuel : Nat) (st : List Int) (ov : List Nat)
    (frags : List (List Char)) (cur : Int) (group : List Nat)
    (merged : List Char) (g : List Nat) (m : List Char),
    (∀ f ∈ frags, f ≠ []) → (group ≠ [] → merged ≠ []) →
    traceLoop st ov frags fuel cur group merged = some (g, m) →
    (g ≠ [] → m ≠ [])
  | 0, _, _, _, _, _, _, _, _ => by intro _ _ h; cases h
  | fuel + 1, st, ov, frags, cur, group, merged, g, m => by
    intro hfr hinv h
    unfold traceLoop at h
    rcases h1 : idxOf st cur with _ | c2
    · rw [h1] at h
      injection h with h
      injection h with h2 h3
      subst h2; subst h3
      exact hinv
    · rw [h1] at h
      dsimp only at h
      rcases h2 : idxOf st (Int.ofNat c2) with _ | nx
      · rw [h2] at h
        injection h with h
        injection h with h3 h4
        subst h3; subst h4
        exact hinv
      · rw [h2] at h
        dsimp only at h
        by_cases hb : c2 < frags.length ∧ nx < frags.length
        · rw [if_pos hb] at h
          rcases h3 : ov.get? nx with _ | k
          · rw [h3] at h; cases h
          · rw [h3] at h
            dsimp only at h
            rcases h4 : join (if c2 ∈ group then merged else frags.getD c2 [])
                (if nx ∈ group then merged else frags.getD nx []) k with _ | m'
            · rw [h4] at h; cases h
            · rw [h4] at h
              obtain ⟨tail, htail⟩ := join_some_shape _ _ _ _ h4
              have hbase : (if c2 ∈ group then merged else frags.getD c2 []) ≠ [] := by
                by_cases hcg : c2 ∈ group
                · rw [if_pos hcg]
                  exact hinv (List.ne_nil_of_mem hcg)
                · rw [if_neg hcg]
                  exact hfr _ (getD_mem_of_lt frags c2 [] hb.1)
              have hm' : m' ≠ [] := by
                rw [htail]
                intro hc
                rcases List.append_eq_nil.mp hc with ⟨hc1, _⟩
                exact hbase hc1
              exact traceLoop_merged_ne fuel st ov frags (Int.ofNat c2)
                (c2 :: nx :: group) m' g m hfr (fun _ => hm') h
        · rw [if_neg hb] at h
          cases h

/-- A successful stitch attempt over non-empty fragments yields a non-empty
decoded text. -/
theorem stitchAttempt_ne (st : List Int) (ov : List Nat)
    (frags : List (List Char)) (hfr : ∀ f ∈ frags, f ≠ []) (s : List Char)
    (h : stitchAttempt st ov frags = some (some s)) : s ≠ [] := by
  unfold stitchAttempt at h
  rcases h1 : traceLoop st ov frags (st.length + 1) (-1) [] [] with _ | gm
  · rw [h1] at h; cases h
  · rw [h1] at h
    obtain ⟨group, merged⟩ := gm
    rcases frags with _ | ⟨f0, rest⟩
    · dsimp only at h
      cases h
    · dsimp only at h
      by_cases hall : ((List.range (f0 :: rest).length).all fun j =>
          (if j ∈ group then merged else (f0 :: rest).getD j []) ==
            (if 0 ∈ group then merged else f0)) = true
      · rw [if_pos hall] at h
        injection h with h
        injection h with h
        subst h
        apply decode_ne
        by_cases hg : 0 ∈ group
        · rw [if_pos hg]
          exact traceLoop_merged_ne _ _ _ _ _ _ _ _ _ hfr
            (fun hc => absurd rfl hc) h1 (List.ne_nil_of_mem hg)
        · rw [if_neg hg]
          exact hfr f0 (by simp)
      · rw [if_neg hall] at h
        injection h with h
        cases h

/-- The candidate loop only returns non-empty successes when the
continuation does. -/
theorem candLoop_ne : ∀ (cands : List Cand)
    (next : List Bool → List Int → List Nat → Option (Option (List Char)))
    (si : Nat) (seen : List Bool) (st : List Int) (ov : List Nat) (s : List Char),
    (∀ seen' st' ov' s', next seen' st' ov' = some (some s') → s' ≠ []) →
    candLoop next si cands seen st ov = some (some s) → s ≠ []
  | [], next, si, seen, st, ov, s => by
    intro _ h
    injection h with h
    cases h
  | (g, ovs) :: more, next, si, seen, st, ov, s => by
    intro hnext h
    unfold candLoop at h
    rcases h1 : seen.get? g with _ | b
    · rw [h1] at h; cases h
    · rw [h1] at h
      dsimp only at h
      by_cases hb : b = true
      · rw [if_pos hb] at h
        exact candLoop_ne more next si seen st ov s hnext h
      · rw [if_neg hb] at h
        by_cases hbounds : si < st.length ∧ si < ov.length
        · rw [if_pos hbounds] at h
          rcases h2 : next (seen.set g true) (st.set si (Int.ofNat g))
              (ov.set si (ulen ovs)) with _ | r
          · rw [h2] at h; cases h
          · rw [h2] at h
            dsimp only at h
            by_cases htr : truthy r = true
            · rw [if_pos htr] at h
              injection h with h
              subst h
              exact hnext _ _ _ s h2
            · rw [if_neg htr] at h
              exact candLoop_ne more next si seen (st.set si (Int.ofNat g))
                (ov.set si (ulen ovs)) s hnext h
        · rw [if_neg hbounds] at h
          cases h

/-- Every success `stitch` can return over non-empty fragments is a
non-empty text (it is some attempt's decoded merge). -/
theorem stitch_ne : ∀ (rem : List Nat) (ja : List (List Cand))
    (frags : List (List Char)) (index : Nat) (seen : List Bool)
    (st : List Int) (ov : List Nat) (s : List Char),
    (∀ f ∈ frags, f ≠ []) →
    stitch ja frags rem index seen st ov = some (some s) → s ≠ []
  | rem, ja, frags, index, seen, st, ov, s => by
    intro hfr h
    unfold stitch at h
    by_cases hidx : index = ja.length
    · rw [if_pos hidx] at h
      exact stitchAttempt_ne st ov frags hfr s h
    · rw [if_neg hidx] at h
      match rem, h with
      | [], h => cases h
      | si :: rest, h => ?_
      dsimp only at h
      rcases h1 : ja.get? si with _ | cands
      · rw [h1] at h; cases h
      · rw [h1] at h
        dsimp only at h
        by_cases hemp : cands.isEmpty = true
        · rw [if_pos hemp] at h
          by_cases hsi : si < st.length
          · rw [if_pos hsi] at h
            rcases h2 : stitch ja frags rest (index + 1) seen (st.set si (-1)) ov
              with _ | r
            · rw [h2] at h; cases h
            · rw [h2] at h
              dsimp only at h
              by_cases htr : truthy r = true
              · rw [if_pos htr] at h
                injection h with h
                subst h
                exact stitch_ne rest ja frags (index + 1) seen (st.set si (-1))
                  ov s hfr h2
              · rw [if_neg htr] at h
                injection h with h
                cases h
          · rw [if_neg hsi] at h
            cases h
        · rw [if_neg hemp] at h
          exact candLoop_ne cands.reverse _ si seen st ov s
            (fun seen' st' ov' s' h' =>
              stitch_ne rest ja frags (index + 1) seen' st' ov' s' hfr h') h

theorem plainStitch_ne (ja : List (List Cand)) (frags : List (List Char))
    (s : List Char) (hfr : ∀ f ∈ frags, f ≠ [])
    (h : plainStitch ja frags = some (some s)) : s ≠ [] := by
  unfold plainStitch at h
  exact stitch_ne _ ja frags 0 _ _ _ s hfr h

/-! ## C2: the success check of a stitch attempt -/

/-- C2, counterexample: the claim says the attempt is reported as success
only if the merge trace visits every fragment exactly once; with the two
identical fragments `"AAA"`, `"AAA"` and both assigned as chain heads
(`stitchings = [-1,-1]`, which the search produces since both candidate
lists are empty), the trace merges *nothing* (its alias group is empty),
yet the attempt is reported as success with text `"AAA"`, because the
success test compares raw texts (`stitch_attempt.count(stitch_attempt[0])`)
rather than membership in the merge. -/
theorem C2_counterexample :
    stitch [[], []] ["AAA".data, "AAA".data] [0, 1] 0 [false, false]
        [0, 0] [0, 0] = some (some "AAA".data) ∧
      traceLoop [-1, -1] [0, 0] ["AAA".data, "AAA".data] 3 (-1) [] [] =
        some ([], []) := by
  exact ⟨by decide, by decide⟩

/-- C2, amended: the stitch attempt is reported as success if and only if,
after the merge trace, every entry of the attempt array is raw-text-equal
to entry 0 (merged entries hold the merged text, unmerged entries their
original fragment).  Visiting every fragment is sufficient but not
necessary: an unmerged fragment whose raw text happens to equal entry 0's
also passes. -/
theorem C2_success_iff_raw_equal (st : List Int) (ov : List Nat)
    (frags : List (List Char)) (r : Option (List Char))
    (h : stitchAttempt st ov frags = some r) :
    r.isSome = true ↔
      ∃ group merged,
        traceLoop st ov frags (st.length + 1) (-1) [] [] = some (group, merged) ∧
          frags ≠ [] ∧
          ∀ j < frags.length,
            (if j ∈ group then merged else frags.getD j []) =
              (if 0 ∈ group then merged else frags.getD 0 []) := by
  unfold stitchAttempt at h
  rcases h1 : traceLoop st ov frags (st.length + 1) (-1) [] [] with _ | gm
  · rw [h1] at h; cases h
  · rw [h1] at h
    obtain ⟨group, merged⟩ := gm
    rcases frags with _ | ⟨f0, rest⟩
    · dsimp only at h
      cases h
    · dsimp only at h
      by_cases hall : ((List.range (f0 :: rest).length).all fun j =>
          (if j ∈ group then merged else (f0 :: rest).getD j []) ==
            (if 0 ∈ group then merged else f0)) = true
      · rw [if_pos hall] at h
        injection h with h
        subst h
        simp only [Option.isSome_some, true_iff]
        refine ⟨group, merged, rfl, by simp, ?_⟩
        intro j hj
        have := List.all_eq_true.mp hall j (List.mem_range.mpr hj)
        exact beq_iff_eq.mp this
      · rw [if_neg hall] at h
        injection h with h
        subst h
        simp only [Option.isSome_none, Bool.false_eq_true, false_iff]
        rintro ⟨group', merged', htr, _, halleq⟩
        injection htr with htr
        injection htr with htr1 htr2
        subst htr1; subst htr2
        apply hall
        rw [List.all_eq_true]
        intro j hj
        exact beq_iff_eq.mpr (halleq j (List.mem_range.mp hj))

/-- Witness for the amended C2 on the duplicate-fragment input. -/
theorem C2_witness :
    ∃ group merged,
      traceLoop [-1, -1] [0, 0] ["AAA".data, "AAA".data] 3 (-1) [] [] =
          some (group, merged) ∧
        (["AAA".data, "AAA".data] : List (List Char)) ≠ [] ∧
        ∀ j < (["AAA".data, "AAA".data] : List (List Char)).length,
          (if j ∈ group then merged else ["AAA".data, "AAA".data].getD j []) =
            (if 0 ∈ group then merged else ["AAA".data, "AAA".data].getD 0 []) :=
  (C2_success_iff_raw_equal [-1, -1] [0, 0] ["AAA".data, "AAA".data]
    (some "AAA".data) (by decide)).mp rfl

/-! ## C7: the forced-head fallback -/

theorem forcedGo_all_fail : ∀ (js : List Nat) (ja : List (List Cand))
    (frags : List (List Char)), js ≠ [] →
    (∀ j ∈ js, plainStitch (ja.set j []) frags = some none) →
    forcedGo ja frags js = some none
  | [], _, _ => by intro hne _; exact absurd rfl hne
  | [j], ja, frags => by
    intro _ hall
    unfold forcedGo
    exact hall j (by simp)
  | j :: j2 :: rest, ja, frags => by
    intro _ hall
    unfold forcedGo
    rw [hall j (by simp)]
    dsimp only
    rw [if_neg (by rw [show truthy none = false from rfl]; exact Bool.false_ne_true)]
    exact forcedGo_all_fail (j2 :: rest) ja frags (by simp)
      (fun j' hj' => hall j' (by simp [hj']))

theorem forcedGo_success_after : ∀ (pre : List Nat) (jm : Nat)
    (post : List Nat) (ja : List (List Cand)) (frags : List (List Char))
    (s : List Char),
    (∀ j ∈ pre, plainStitch (ja.set j []) frags = some none) →
    plainStitch (ja.set jm []) frags = some (some s) → s ≠ [] →
    forcedGo ja frags (pre ++ jm :: post) = some (some s)
  | [], jm, post, ja, frags, s => by
    intro _ hs hne
    rw [List.nil_append]
    rcases post with _ | ⟨p, ps⟩
    · unfold forcedGo
      exact hs
    · unfold forcedGo
      rw [hs]
      dsimp only
      rw [if_pos (by simp [truthy, hne])]
  | p :: pre', jm, post, ja, frags, s => by
    intro hall hs hne
    have hrest : pre' ++ jm :: post ≠ [] := by
      intro hc
      exact absurd hc (List.append_ne_nil_of_right_ne_nil pre' (by simp))
    rcases hr : pre' ++ jm :: post with _ | ⟨q, qs⟩
    · exact absurd hr hrest
    · have hl : p :: (pre' ++ jm :: post) = p :: q :: qs := by rw [hr]
      rw [List.cons_append, hl]
      unfold forcedGo
      rw [hall p (by simp)]
      dsimp only
      rw [if_neg (by rw [show truthy none = false from rfl]; exact Bool.false_ne_true)]
      rw [← hr]
      exact forcedGo_success_after pre' jm post ja frags s
        (fun j hj => hall j (by simp [hj])) hs hne

theorem range_decomp (n jm : Nat) (h : jm < n) :
    ∃ post, List.range n = List.range jm ++ jm :: post := by
  obtain ⟨k, hk⟩ : ∃ k, n = jm + (k + 1) := ⟨n - jm - 1, by omega⟩
  subst hk
  refine ⟨(List.range k).map (fun x => jm + (x + 1)), ?_⟩
  rw [List.range_add, List.range_succ_eq_map]
  simp [List.map_map, Function.comp, Nat.succ_eq_add_one]

/-- C7: when (and only when) no fragment has an empty candidate list, the
search is retried once per fragment in original index order with that
fragment's list forced empty; the result is the first forced-head attempt
that produces a full chain (a truthy text), and if every forced-head
attempt fails cleanly the overall result is the explicit failure `None`.
If some fragment has an empty candidate list, a single plain attempt is
run instead. -/
theorem C7_forced_head_fallback (frags : List (List Char))
    (ja : List (List Cand)) (h1 : candidateLists frags = some ja)
    (hfr : ∀ f ∈ frags, f ≠ []) (hn : frags ≠ []) :
    ((∃ e ∈ ja, e = []) → reconstruct frags = plainStitch ja frags) ∧
      ((∀ e ∈ ja, e ≠ []) →
        reconstruct frags = forcedGo ja frags (List.range frags.length) ∧
          (∀ jm, jm < frags.length →
            (∀ j, j < jm → plainStitch (ja.set j []) frags = some none) →
            (∃ s, plainStitch (ja.set jm []) frags = some (some s)) →
            reconstruct frags = plainStitch (ja.set jm []) frags) ∧
          ((∀ j, j < frags.length → plainStitch (ja.set j []) frags = some none) →
            reconstruct frags = some none)) := by
  have hr : reconstruct frags =
      if ja.any List.isEmpty = true then plainStitch ja frags
      else forcedGo ja frags (List.range frags.length) := by
    unfold reconstruct
    rw [h1]
    rfl
  constructor
  · rintro ⟨e, he, hee⟩
    have hany : ja.any List.isEmpty = true :=
      List.any_eq_true.mpr ⟨e, he, by rw [hee]; rfl⟩
    rw [hr, if_pos hany]
  · intro hne
    have hany : ¬(ja.any List.isEmpty = true) := by
      intro hcon
      obtain ⟨e, he, hee⟩ := List.any_eq_true.mp hcon
      exact hne e he (List.isEmpty_iff.mp hee)
    have hrec : reconstruct frags = forcedGo ja frags (List.range frags.length) := by
      rw [hr, if_neg hany]
    refine ⟨hrec, ?_, ?_⟩
    · rintro jm hjm hfail ⟨s, hs⟩
      obtain ⟨post, hpost⟩ := range_decomp frags.length jm hjm
      rw [hrec, hpost,
        forcedGo_success_after (List.range jm) jm post ja frags s
          (fun j hj => hfail j (List.mem_range.mp hj)) hs
          (plainStitch_ne _ _ _ hfr hs), hs]
    · intro hfailall
      rw [hrec]
      refine forcedGo_all_fail (List.range frags.length) ja frags ?_
        (fun j hj => hfailall j (List.mem_range.mp hj))
      intro hc
      rw [List.range_eq_nil] at hc
      exact hn (List.length_eq_zero.mp hc)

/-- Witness for C7: on `["ABCDEF", "DEFABC"]` every candidate list is
nonempty, so reconstruction runs the forced-head loop over fragment
indices 0, 1 in order. -/
theorem C7_witness :
    reconstruct ["ABCDEF".data, "DEFABC".data] =
      forcedGo [[(1, "ABC".data)], [(0, "DEF".data)]]
        ["ABCDEF".data, "DEFABC".data] (List.range 2) :=
  ((C7_forced_head_fallback ["ABCDEF".data, "DEFABC".data]
      [[(1, "ABC".data)], [(0, "DEF".data)]] (by decide) (by decide)
      (by decide)).2 (by decide)).1

/-! ## C3: the concrete scenario -/

/-- C3, counterexample: with minimum overlap 3, reconstruction of
`["ABCDEF", "CDEFGH", "GHIJKL"]` does not return `"ABCDEFGHIJKL"`; it
returns the explicit failure `None`.  The first junction is fine:
`"ABCDEF"`/`"CDEFGH"` share the 4-token boundary `"CDEF"`, and the
candidate lists record `(0, "CDEF")` for `"CDEFGH"`.  But
`"CDEFGH"`/`"GHIJKL"` share only `"GH"` (2 tokens, below
`MIN_OVERLAP = 3`), so `"GHIJKL"`'s candidate list is empty: it is left as
a disjoint chain and the stitch fails. -/
theorem C3_counterexample :
    candidateLists ["ABCDEF".data, "CDEFGH".data, "GHIJKL".data] =
        some [[], [(0, "CDEF".data)], []] ∧
      reconstruct ["ABCDEF".data, "CDEFGH".data, "GHIJKL".data] = some none ∧
      reconstruct ["ABCDEF".data, "CDEFGH".data, "GHIJKL".data] ≠
        some (some "ABCDEFGHIJKL".data) := by
  exact ⟨by decide, by decide, by decide⟩

/-- C3, amended: with adjacent overlaps of at least 3 tokens, e.g.
`["ABCDEF", "DEFGHI", "GHIJKL"]`, reconstruction succeeds and returns
`"ABCDEFGHIJKL"` (which decodes to itself, having no escapes). -/
theorem C3_amended_scenario :
    reconstruct ["ABCDEF".data, "DEFGHI".data, "GHIJKL".data] =
        some (some "ABCDEFGHIJKL".data) ∧
      decode "ABCDEFGHIJKL".data = "ABCDEFGHIJKL".data := by
  exact ⟨by decide, by decide⟩

/-! ## C1: the round trip -/

/-- C1, counterexample: the source text `"ABCDEFABC"` split as
`"ABCDEF"` / `"DEFABC"` satisfies the claim's hypotheses — the adjacent
pair shares the 3-token boundary `"DEF"` (`MIN_OVERLAP = 3` exactly), and
no overlap in either direction exceeds the 3 the split implies (checked
for every longer length) — yet reconstruction of the reordered list
`["DEFABC", "ABCDEF"]` returns `"DEFABCDEF"`, not the original: the
unintended overlap `"ABC"` (suffix of `"DEFABC"`, prefix of `"ABCDEF"`)
ties the implied one at length 3, and the forced-head fallback accepts the
first chain in fragment-index order, which here starts at `"DEFABC"`. -/
theorem C1_counterexample :
    "ABCDEF".data.drop 3 = "DEFABC".data.take 3 ∧
      "ABCDEF".data ++ "DEFABC".data.drop 3 = "ABCDEFABC".data ∧
      (∀ k, 3 < k → k ≤ 6 →
        "ABCDEF".data.drop (6 - k) ≠ "DEFABC".data.take k) ∧
      (∀ k, 3 < k → k ≤ 6 →
        "DEFABC".data.drop (6 - k) ≠ "ABCDEF".data.take k) ∧
      reconstruct ["DEFABC".data, "ABCDEF".data] =
        some (some "DEFABCDEF".data) ∧
      "DEFABCDEF".data ≠ "ABCDEFABC".data := by
  refine ⟨by decide, by decide, ?_, ?_, by decide, by decide⟩
  · intro k h3 h6
    interval_cases k <;> decide
  · intro k h3 h6
    interval_cases k <;> decide

/-- C1, amended: the round trip holds only up to head ambiguity.  When an
unintended overlap ties the split-implied one, the chosen chain head
depends on fragment-index order, and the result is the first forced-head
chain, which may be a rotation of the original text.  On the same split
listed with the true head first — `["ABCDEF", "DEFABC"]` — reconstruction
does return the original `"ABCDEFABC"` (which decodes to itself). -/
theorem C1_amended_round_trip :
    reconstruct ["ABCDEF".data, "DEFABC".data] =
        some (some "ABCDEFABC".data) ∧
      decode "ABCDEFABC".data = "ABCDEFABC".data := by
  exact ⟨by decide, by decide⟩

end KBase
